import Mathlib

/-!
# Multi-threaded latency benchmark: epoch coordination and work partition

A shallow embedding of `src/mpi/pt2pt/osu_latency_mt.c`.

* C `int` values are modelled as `Int`, and the option fields are read as
  `int`.  An `int` operation of the worker loops whose result does not fit a
  32-bit `int` (the doubling of the message size, the sum
  `iterations + skip`, the step of the iteration index) has an explicit
  overflow outcome: the C standard leaves the run undefined from there.  The
  epoch counters stay between 1 and the thread count, so their increment is
  exact.
* Threads are modelled one at a time: a worker is a function from its
  identity (`val`) and the options to the trace of epochs it runs.  The two
  shared epoch counters are a state, and one pass of a worker through the
  locked block at the top of its size loop is a step on that state.
* Messages are represented by their tags only; times and buffers are not
  modelled.
-/

namespace OsuLatencyMt

/-! ## Data model -/

/-- The fields of the global `options` that the benchmark reads. -/
structure Options where
  min_message_size : Int
  max_message_size : Int
  iterations : Int
  skip : Int
  iterations_large : Int
  skip_large : Int
  num_threads : Int
  sender_thread : Int
  deriving DecidableEq

/-- Largest value of a 32-bit C `int`. -/
def INT_MAX : Int := 2147483647

/-- Smallest value of a 32-bit C `int`. -/
def INT_MIN : Int := -2147483648

/-- The global variables shared by the worker threads of one process:
`finished_size`, `finished_size_sender` and `num_threads_sender`
(lines 238-241). -/
structure Globals where
  finished_size : Int
  finished_size_sender : Int
  num_threads_sender : Int
  deriving DecidableEq

/-- The state of the globals when `main` creates the worker threads:
both counters are set to 1 (lines 338-339) and `num_threads_sender` keeps its
initial value 1 unless `options.sender_thread` differs from -1
(lines 241, 352-354). -/
def main (opts : Options) : Globals :=
  { finished_size := 1
    finished_size_sender := 1
    num_threads_sender := if opts.sender_thread ≠ -1 then opts.sender_thread else 1 }

/-! ## Epoch coordinator -/

/-- The locked block at the top of the size loop of `send_thread`
(lines 498-513), as a step on the globals.  The boolean tells whether this
arrival called `MPI_Barrier`. -/
def send_thread_arrive (g : Globals) : Globals × Bool :=
  if g.finished_size_sender = g.num_threads_sender then
    ({ g with finished_size_sender := 1 }, true)
  else
    ({ g with finished_size_sender := g.finished_size_sender + 1 }, false)

/-- The locked block at the top of the size loop of `recv_thread`
(lines 420-436), as a step on the globals.  The boolean tells whether this
arrival called `MPI_Barrier`. -/
def recv_thread_arrive (opts : Options) (g : Globals) : Globals × Bool :=
  if g.finished_size = opts.num_threads then
    ({ g with finished_size := 1 }, true)
  else
    ({ g with finished_size := g.finished_size + 1 }, false)

/-- Runs `n` successive arrivals of a coordinator step, returning for each
arrival, in order, whether it called the cross-process barrier, and the
final state. -/
def arrivals (step : Globals → Globals × Bool) : Nat → Globals → List Bool × Globals
  | 0, g => ([], g)
  | n + 1, g =>
    let r := arrivals step n (step g).1
    ((step g).2 :: r.1, r.2)

/-! ## Worker loops -/

/-- How a loop of the model ended. -/
inductive Status where
  /-- The loop condition became false. -/
  | finished
  /-- An `int` operation of the loop had a result outside the range of
  `int`. -/
  | overflow
  /-- The loop was still running when the step budget was used up. -/
  | out_of_fuel
  deriving DecidableEq

/-- One round of the iteration loop of `send_thread`: the index `i`, whether
the round recorded `t_start` before its exchange, the tag of the `MPI_Send`
and the tag of the `MPI_Recv` that follows it. -/
structure SendRound where
  i : Int
  t_start_set : Bool
  send_tag : Int
  recv_tag : Int
  deriving DecidableEq

/-- One round of the iteration loop of `recv_thread`: the index `i`, the tag
of the `MPI_Recv` and the tag of the `MPI_Send` that replies to it. -/
structure RecvRound where
  i : Int
  recv_tag : Int
  send_tag : Int
  deriving DecidableEq

/-- Result of the iteration loop of `send_thread`. -/
structure SendLoop where
  rounds : List SendRound
  flag_print : Int
  status : Status
  deriving DecidableEq

/-- Result of the iteration loop of `recv_thread`. -/
structure RecvLoop where
  rounds : List RecvRound
  status : Status
  deriving DecidableEq

/-- Addition of two `int` values: `none` when the sum does not fit an
`int`. -/
def int_add (a b : Int) : Option Int :=
  if INT_MIN ≤ a + b ∧ a + b ≤ INT_MAX then some (a + b) else none

/-- The iteration loop of `send_thread` (lines 525-543), entered with index
`i` and the current value of `flag_print`:
`for (...; i < options.iterations + options.skip; i += num_threads_sender)`.
The sum in the condition and the step `i += num_threads_sender` are `int`
operations; when one of them overflows the loop stops with the outcome
`overflow`.  The first argument bounds the number of rounds. -/
def send_thread_rounds (opts : Options) (g : Globals) : Nat → Int → Int → SendLoop
  | 0, i, flag_print =>
    match int_add opts.iterations opts.skip with
    | none => ⟨[], flag_print, Status.overflow⟩
    | some bound =>
      if i < bound then ⟨[], flag_print, Status.out_of_fuel⟩
      else ⟨[], flag_print, Status.finished⟩
  | fuel + 1, i, flag_print =>
    match int_add opts.iterations opts.skip with
    | none => ⟨[], flag_print, Status.overflow⟩
    | some bound =>
      if i < bound then
        let flag_print1 := if i = opts.skip then 1 else flag_print
        let round : SendRound :=
          if opts.sender_thread > 1 then ⟨i, decide (i = opts.skip), i, i⟩
          else ⟨i, decide (i = opts.skip), 1, 2⟩
        match int_add i g.num_threads_sender with
        | none => ⟨[round], flag_print1, Status.overflow⟩
        | some i1 =>
          let rest := send_thread_rounds opts g fuel i1 flag_print1
          ⟨round :: rest.rounds, rest.flag_print, rest.status⟩
      else ⟨[], flag_print, Status.finished⟩

/-- The iteration loop of `send_thread` as thread `val` runs it in one epoch
(lines 524-543): `flag_print = 0`, `i = val`.  For a positive stride the
index grows in every round, so the round budget `iterations + skip - val` is
never used up: the loop ends or overflows first. -/
def send_thread_iterations (opts : Options) (g : Globals) (val : Int) : SendLoop :=
  send_thread_rounds opts g (opts.iterations + opts.skip - val).toNat val 0

/-- The iteration loop of `recv_thread` (lines 447-458), entered with index
`i`: `for (...; i < options.iterations + options.skip; i += options.num_threads)`,
with the same treatment of `int` overflow as for the sender.  The first
argument bounds the number of rounds. -/
def recv_thread_rounds (opts : Options) : Nat → Int → RecvLoop
  | 0, i =>
    match int_add opts.iterations opts.skip with
    | none => ⟨[], Status.overflow⟩
    | some bound =>
      if i < bound then ⟨[], Status.out_of_fuel⟩
      else ⟨[], Status.finished⟩
  | fuel + 1, i =>
    match int_add opts.iterations opts.skip with
    | none => ⟨[], Status.overflow⟩
    | some bound =>
      if i < bound then
        let round : RecvRound :=
          if opts.sender_thread > 1 then ⟨i, i, i⟩ else ⟨i, 1, 2⟩
        match int_add i opts.num_threads with
        | none => ⟨[round], Status.overflow⟩
        | some i1 =>
          let rest := recv_thread_rounds opts fuel i1
          ⟨round :: rest.rounds, rest.status⟩
      else ⟨[], Status.finished⟩

/-- The iteration loop of `recv_thread` as thread `val` runs it in one epoch
(lines 447-458), with the same round budget as for the sender. -/
def recv_thread_iterations (opts : Options) (val : Int) : RecvLoop :=
  recv_thread_rounds opts (opts.iterations + opts.skip - val).toNat val

/-- The switch at lines 515-518 and 438-441: a size above
`LARGE_MESSAGE_SIZE` overwrites `options.iterations` and `options.skip`. -/
def switch_large (LARGE_MESSAGE_SIZE : Int) (opts : Options) (size : Int) : Options :=
  if size > LARGE_MESSAGE_SIZE then
    { opts with iterations := opts.iterations_large, skip := opts.skip_large }
  else opts

/-- The update of the size loops, `size = (size ? size * 2 : 1)`; `none`
when the product does not fit an `int`. -/
def next_size (size : Int) : Option Int :=
  if size ≠ 0 then
    if INT_MIN ≤ size * 2 ∧ size * 2 ≤ INT_MAX then some (size * 2) else none
  else some 1

/-- One epoch of `send_thread`: the message size, the iteration and warm-up
counts in force during the epoch, the rounds, how the iteration loop ended,
the final `flag_print`, and the size printed in the latency line when one is
emitted (lines 546-555). -/
structure SendEpoch where
  size : Int
  iterations : Int
  skip : Int
  rounds : List SendRound
  loop_status : Status
  flag_print : Int
  latency_line : Option Int
  deriving DecidableEq

/-- One epoch of `recv_thread`: the message size, the counts in force, the
rounds, and how the iteration loop ended. -/
structure RecvEpoch where
  size : Int
  iterations : Int
  skip : Int
  rounds : List RecvRound
  loop_status : Status
  deriving DecidableEq

/-- Trace of a sender thread. -/
structure SendRun where
  epochs : List SendEpoch
  status : Status
  deriving DecidableEq

/-- Trace of a receiver thread. -/
structure RecvRun where
  epochs : List RecvEpoch
  status : Status
  deriving DecidableEq

/-- The body of the size loop of `send_thread` after the coordinator block
(lines 515-555), run by thread `val` with the options `opts` already switched
for this size.  The latency line is reached only when the iteration loop
ends. -/
def send_thread_epoch (opts : Options) (g : Globals) (val size : Int) : SendEpoch :=
  let loop := send_thread_iterations opts g val
  { size := size
    iterations := opts.iterations
    skip := opts.skip
    rounds := loop.rounds
    loop_status := loop.status
    flag_print := loop.flag_print
    latency_line :=
      if loop.status = Status.finished ∧ loop.flag_print = 1 then some size else none }

/-- The body of the size loop of `recv_thread` after the coordinator block
(lines 438-458), run by thread `val` with the options already switched. -/
def recv_thread_epoch (opts : Options) (val size : Int) : RecvEpoch :=
  { size := size
    iterations := opts.iterations
    skip := opts.skip
    rounds := (recv_thread_iterations opts val).rounds
    loop_status := (recv_thread_iterations opts val).status }

/-- The size loop of `send_thread` (lines 496-557), entered with `size`:
`for (...; size <= options.max_message_size; size = (size ? size * 2 : 1))`.
The first argument bounds the number of epochs.  An iteration loop that never
ends keeps the thread in its epoch.  An `int` overflow inside the iteration
loop is recorded in the epoch (`loop_status`); the iteration loop does not
write `size` or `options.max_message_size`, and the size loop is carried on
with them, its own outcome being the `status` of the run. -/
def send_thread_loop (LARGE_MESSAGE_SIZE : Int) (g : Globals) (val : Int) :
    Nat → Options → Int → SendRun
  | 0, opts, size =>
    if size ≤ opts.max_message_size then ⟨[], Status.out_of_fuel⟩
    else ⟨[], Status.finished⟩
  | fuel + 1, opts, size =>
    if size ≤ opts.max_message_size then
      let opts1 := switch_large LARGE_MESSAGE_SIZE opts size
      let epoch := send_thread_epoch opts1 g val size
      if (send_thread_iterations opts1 g val).status = Status.out_of_fuel then
        ⟨[epoch], Status.out_of_fuel⟩
      else
        match next_size size with
        | some size1 =>
          let rest := send_thread_loop LARGE_MESSAGE_SIZE g val fuel opts1 size1
          ⟨epoch :: rest.epochs, rest.status⟩
        | none => ⟨[epoch], Status.overflow⟩
    else ⟨[], Status.finished⟩

/-- The size loop of `recv_thread` (lines 418-461), entered with `size`, with
the same treatment of the iteration loop as for the sender. -/
def recv_thread_loop (LARGE_MESSAGE_SIZE : Int) (val : Int) :
    Nat → Options → Int → RecvRun
  | 0, opts, size =>
    if size ≤ opts.max_message_size then ⟨[], Status.out_of_fuel⟩
    else ⟨[], Status.finished⟩
  | fuel + 1, opts, size =>
    if size ≤ opts.max_message_size then
      let opts1 := switch_large LARGE_MESSAGE_SIZE opts size
      let epoch := recv_thread_epoch opts1 val size
      if (recv_thread_iterations opts1 val).status = Status.out_of_fuel then
        ⟨[epoch], Status.out_of_fuel⟩
      else
        match next_size size with
        | some size1 =>
          let rest := recv_thread_loop LARGE_MESSAGE_SIZE val fuel opts1 size1
          ⟨epoch :: rest.epochs, rest.status⟩
        | none => ⟨[epoch], Status.overflow⟩
    else ⟨[], Status.finished⟩

/-- A sender thread with identity `val` (lines 470-562): the size loop
starts at `options.min_message_size`. -/
def send_thread (LARGE_MESSAGE_SIZE : Int) (opts : Options) (val : Int) (fuel : Nat) :
    SendRun :=
  send_thread_loop LARGE_MESSAGE_SIZE (main opts) val fuel opts opts.min_message_size

/-- A receiver thread with identity `val` (lines 391-468). -/
def recv_thread (LARGE_MESSAGE_SIZE : Int) (opts : Options) (val : Int) (fuel : Nat) :
    RecvRun :=
  recv_thread_loop LARGE_MESSAGE_SIZE val fuel opts opts.min_message_size

/-! ## Auxiliary definitions for the statements -/

/-- The indices `i, i + S, i + 2 * S, ...` that are below `N`, at most `fuel`
of them: the values taken by the loop variable of
`for (...; i < N; i += S)`. -/
def stride_indices (N S : Int) : Nat → Int → List Int
  | 0, _ => []
  | fuel + 1, i => if i < N then i :: stride_indices N S fuel (i + S) else []

/-- The iteration indices that sender thread `val` works on in one epoch. -/
def send_indices (opts : Options) (val : Int) : List Int :=
  (send_thread_iterations opts (main opts) val).rounds.map (fun r => r.i)

/-- The iteration indices that receiver thread `val` works on in one epoch. -/
def recv_indices (opts : Options) (val : Int) : List Int :=
  (recv_thread_iterations opts val).rounds.map (fun r => r.i)

/-- The header of the size loops of `send_thread` and `recv_thread`
(lines 496-497 and 418-419) on its own: the sizes for which the body is run,
and how the loop ended.  The first argument bounds the number of sizes. -/
def size_loop (max_message_size : Int) : Nat → Int → List Int × Status
  | 0, size =>
    if size ≤ max_message_size then ([], Status.out_of_fuel) else ([], Status.finished)
  | fuel + 1, size =>
    if size ≤ max_message_size then
      match next_size size with
      | some size1 =>
        let rest := size_loop max_message_size fuel size1
        (size :: rest.1, rest.2)
      | none => ([size], Status.overflow)
    else ([], Status.finished)

/-- The message sizes of the epochs that sender thread `val` runs. -/
def send_sizes (LARGE_MESSAGE_SIZE : Int) (opts : Options) (val : Int) (fuel : Nat) :
    List Int :=
  (send_thread LARGE_MESSAGE_SIZE opts val fuel).epochs.map (fun e => e.size)

/-- The message sizes of the epochs that receiver thread `val` runs. -/
def recv_sizes (LARGE_MESSAGE_SIZE : Int) (opts : Options) (val : Int) (fuel : Nat) :
    List Int :=
  (recv_thread LARGE_MESSAGE_SIZE opts val fuel).epochs.map (fun e => e.size)

/-- The tags of all `MPI_Send` calls of the sender threads `0 .. S-1` in one
epoch, thread by thread. -/
def all_sender_send_tags (opts : Options) : List Int :=
  (List.range (main opts).num_threads_sender.toNat).flatMap (fun id =>
    (send_thread_iterations opts (main opts) (id : Int)).rounds.map (fun r => r.send_tag))

/-- The tags of all `MPI_Recv` calls of the receiver threads `0 .. R-1` in one
epoch, thread by thread. -/
def all_receiver_recv_tags (opts : Options) : List Int :=
  (List.range opts.num_threads.toNat).flatMap (fun id =>
    (recv_thread_iterations opts (id : Int)).rounds.map (fun r => r.recv_tag))

/-- The scenario of the specification: two sender threads, two receiver
threads, sizes 1 to 4, four iterations and no warm-up; the large-message
counts are two iterations and no warm-up. -/
def scenario : Options :=
  { min_message_size := 1
    max_message_size := 4
    iterations := 4
    skip := 0
    iterations_large := 2
    skip_large := 0
    num_threads := 2
    sender_thread := 2 }

/-- The scenario of the specification with `min_message_size` set to 0. -/
def scenario_from_zero : Options :=
  { scenario with min_message_size := 0 }

/-- The scenario of the specification run by a single sender thread and a
single receiver thread, with `sender_thread` left unset (-1). -/
def scenario_single : Options :=
  { scenario with num_threads := 1, sender_thread := -1 }

/-- The rounds that the timer-holder, sender thread `skip mod S`, runs in one
epoch. -/
def timer_holder_rounds (opts : Options) : List SendRound :=
  (send_thread_iterations opts (main opts)
    (opts.skip % (main opts).num_threads_sender)).rounds

/-- The rounds of the timer-holder that come before the round in which
`t_start` is recorded. -/
def rounds_before_t_start (opts : Options) : List SendRound :=
  (timer_holder_rounds opts).takeWhile (fun r => !r.t_start_set)

/-- The rounds of the timer-holder from the one in which `t_start` is
recorded to the end of the iteration loop, where the thread reaches the
sender barrier. -/
def rounds_from_t_start (opts : Options) : List SendRound :=
  (timer_holder_rounds opts).dropWhile (fun r => !r.t_start_set)

/-- The scenario of the specification with three sender threads and a warm-up
of five rounds: the four measured iterations are not a multiple of the
sender count. -/
def scenario_three : Options :=
  { scenario with sender_thread := 3, skip := 5 }

/-- The scenario of the specification with the largest `int` as iteration
count and one warm-up round: the sum `iterations + skip` does not fit an
`int`. -/
def scenario_int_max : Options :=
  { scenario with iterations := 2147483647, skip := 1 }

/-! ## Lemmas on the epoch coordinator -/

/-- Closed form of a run of arrivals for a counter `ctr` compared with `T`. -/
theorem arrivals_closed_form (step : Globals → Globals × Bool) (ctr : Globals → Int)
    (T : Int) (Inv : Globals → Prop)
    (hs : ∀ g, Inv g → Inv (step g).1 ∧ (step g).2 = decide (ctr g = T) ∧
      ctr (step g).1 = if ctr g = T then 1 else ctr g + 1) :
    ∀ (n : Nat) (g : Globals), Inv g → 1 ≤ ctr g → ctr g ≤ T →
      (arrivals step n g).1 = (List.range n).map (fun (j : Nat) => decide (T ∣ ctr g + (j : Int))) ∧
      Inv (arrivals step n g).2 ∧ 1 ≤ ctr (arrivals step n g).2 ∧
      ctr (arrivals step n g).2 ≤ T := by
  intro n
  induction n with
  | zero => intro g hI h1 hT; simp [arrivals, hI, h1, hT]
  | succ n ih =>
    intro g hI h1 hT
    obtain ⟨hI1, hb, hc⟩ := hs g hI
    have h1' : 1 ≤ ctr (step g).1 := by rw [hc]; split <;> omega
    have hT' : ctr (step g).1 ≤ T := by rw [hc]; split <;> omega
    obtain ⟨ihl, ihI, ih1, ihT⟩ := ih (step g).1 hI1 h1' hT'
    refine ⟨?_, ihI, ih1, ihT⟩
    show (step g).2 :: (arrivals step n (step g).1).1 = _
    rw [ihl, List.range_succ_eq_map, List.map_cons, List.map_map, hb]
    congr 1
    · by_cases h : ctr g = T
      · simp [h]
      · have : ¬ T ∣ ctr g := fun hd => by
          have := Int.le_of_dvd (by omega) hd
          omega
        simp [h, this]
    · apply List.map_congr_left
      intro j _
      simp only [Function.comp, hc]
      rw [decide_eq_decide]
      by_cases h : ctr g = T
      · simp only [h, if_true]
        have : T + ((j + 1 : Nat) : Int) = (1 + (j : Int)) + T := by push_cast; ring
        rw [this, Int.dvd_add_left (dvd_refl T)]
      · simp only [h, if_false]
        have : ctr g + ((j + 1 : Nat) : Int) = ctr g + 1 + (j : Int) := by push_cast; ring
        rw [this]

/-- Among the first `n` positive integers, `n / t` are multiples of `t`. -/
theorem count_multiples (t n : Nat) :
    ((List.range n).map (fun (j : Nat) => decide ((t : Int) ∣ 1 + (j : Int)))).count true = n / t := by
  induction n with
  | zero => simp
  | succ n ih =>
    rw [List.range_succ, List.map_append, List.count_append, ih, Nat.succ_div]
    congr 1
    have : ((t : Int) ∣ 1 + (n : Int)) ↔ t ∣ n + 1 := by
      rw [show (1 : Int) + (n : Int) = ((n + 1 : Nat) : Int) by push_cast; ring]
      exact Int.natCast_dvd_natCast
    by_cases h : t ∣ n + 1
    · simp [h, this]
    · simp [h, this]

/-- The step of the sender coordinator, in the form used by the closed form. -/
theorem send_thread_arrive_step (T : Int) (g : Globals) (h : g.num_threads_sender = T) :
    (send_thread_arrive g).1.num_threads_sender = T ∧
    (send_thread_arrive g).2 = decide (g.finished_size_sender = T) ∧
    (send_thread_arrive g).1.finished_size_sender
      = if g.finished_size_sender = T then 1 else g.finished_size_sender + 1 := by
  subst h
  unfold send_thread_arrive
  by_cases hc : g.finished_size_sender = g.num_threads_sender <;> simp [hc]

/-- The step of the receiver coordinator, in the form used by the closed form. -/
theorem recv_thread_arrive_step (opts : Options) (g : Globals) :
    True ∧
    (recv_thread_arrive opts g).2 = decide (g.finished_size = opts.num_threads) ∧
    (recv_thread_arrive opts g).1.finished_size
      = if g.finished_size = opts.num_threads then 1 else g.finished_size + 1 := by
  unfold recv_thread_arrive
  by_cases hc : g.finished_size = opts.num_threads <;> simp [hc]

/-- Flags and final counter of `n` sender arrivals after `main`. -/
theorem send_arrivals_spec (opts : Options) (hS : 1 ≤ (main opts).num_threads_sender) (n : Nat) :
    (arrivals send_thread_arrive n (main opts)).1
      = (List.range n).map (fun (j : Nat) => decide ((main opts).num_threads_sender ∣ 1 + (j : Int))) ∧
    1 ≤ (arrivals send_thread_arrive n (main opts)).2.finished_size_sender ∧
    (arrivals send_thread_arrive n (main opts)).2.finished_size_sender
      ≤ (main opts).num_threads_sender := by
  have h := arrivals_closed_form send_thread_arrive (fun g => g.finished_size_sender)
    (main opts).num_threads_sender (fun g => g.num_threads_sender = (main opts).num_threads_sender)
    (fun g hg => send_thread_arrive_step _ g hg) n (main opts) rfl (le_refl _) hS
  exact ⟨h.1, h.2.2.1, h.2.2.2⟩

/-- Flags and final counter of `n` receiver arrivals after `main`. -/
theorem recv_arrivals_spec (opts : Options) (hR : 1 ≤ opts.num_threads) (n : Nat) :
    (arrivals (recv_thread_arrive opts) n (main opts)).1
      = (List.range n).map (fun (j : Nat) => decide (opts.num_threads ∣ 1 + (j : Int))) ∧
    1 ≤ (arrivals (recv_thread_arrive opts) n (main opts)).2.finished_size ∧
    (arrivals (recv_thread_arrive opts) n (main opts)).2.finished_size ≤ opts.num_threads := by
  have h := arrivals_closed_form (recv_thread_arrive opts) (fun g => g.finished_size)
    opts.num_threads (fun _ => True)
    (fun g _ => recv_thread_arrive_step opts g) n (main opts) trivial (le_refl _) hR
  exact ⟨h.1, h.2.2.1, h.2.2.2⟩

/-- Barrier count and barrier positions of a list of flags in closed form. -/
theorem flags_count_and_positions (T : Int) (hT : 1 ≤ T) (n : Nat) (l : List Bool)
    (hl : l = (List.range n).map (fun (j : Nat) => decide (T ∣ 1 + (j : Int)))) :
    l.count true = n / T.toNat ∧
    ∀ k : Nat, 1 ≤ k → k ≤ n → l[k - 1]? = some (decide (T ∣ (k : Int))) := by
  subst hl
  obtain ⟨t, rfl⟩ := Int.eq_ofNat_of_zero_le (by omega : 0 ≤ T)
  refine ⟨by simpa using count_multiples t n, ?_⟩
  intro k hk1 hkn
  rw [List.getElem?_map, List.getElem?_range (by omega)]
  simp only [Option.map_some']
  have : (1 : Int) + ((k - 1 : Nat) : Int) = (k : Int) := by omega
  rw [this]

/-! ## Lemmas on the iteration loops -/

/-- A sum within the range of `int` is computed exactly. -/
theorem int_add_some (a b : Int) (hlo : INT_MIN ≤ a + b) (hhi : a + b ≤ INT_MAX) :
    int_add a b = some (a + b) := by
  unfold int_add
  rw [if_pos ⟨hlo, hhi⟩]

/-- A sum that is computed is the mathematical sum. -/
theorem int_add_eq (a b c : Int) (h : int_add a b = some c) : c = a + b := by
  unfold int_add at h
  split at h
  · exact (Option.some.inj h).symm
  · exact absurd h (by simp)

/-- The sender iteration loop with no budget left, when `iterations + skip`
fits an `int`. -/
theorem send_thread_rounds_zero (opts : Options) (g : Globals)
    (hlo : INT_MIN ≤ opts.iterations + opts.skip)
    (hhi : opts.iterations + opts.skip ≤ INT_MAX) (i flag : Int) :
    send_thread_rounds opts g 0 i flag
      = if i < opts.iterations + opts.skip then ⟨[], flag, Status.out_of_fuel⟩
        else ⟨[], flag, Status.finished⟩ := by
  rw [send_thread_rounds]
  simp only [int_add_some _ _ hlo hhi]

/-- One round of the sender iteration loop, when `iterations + skip` and the
next index fit an `int`. -/
theorem send_thread_rounds_succ (opts : Options) (g : Globals)
    (hS : 1 ≤ g.num_threads_sender)
    (hlo : INT_MIN ≤ opts.iterations + opts.skip)
    (hhi : opts.iterations + opts.skip + g.num_threads_sender ≤ INT_MAX + 1)
    (fuel : Nat) (i flag : Int) (hi : INT_MIN ≤ i) :
    send_thread_rounds opts g (fuel + 1) i flag
      = if i < opts.iterations + opts.skip then
          ⟨(if opts.sender_thread > 1 then
              (⟨i, decide (i = opts.skip), i, i⟩ : SendRound)
            else ⟨i, decide (i = opts.skip), 1, 2⟩)
            :: (send_thread_rounds opts g fuel (i + g.num_threads_sender)
                  (if i = opts.skip then 1 else flag)).rounds,
            (send_thread_rounds opts g fuel (i + g.num_threads_sender)
              (if i = opts.skip then 1 else flag)).flag_print,
            (send_thread_rounds opts g fuel (i + g.num_threads_sender)
              (if i = opts.skip then 1 else flag)).status⟩
        else ⟨[], flag, Status.finished⟩ := by
  rw [send_thread_rounds]
  simp only [int_add_some _ _ hlo (by omega)]
  by_cases h : i < opts.iterations + opts.skip
  · simp only [h, if_true, int_add_some i g.num_threads_sender (by omega) (by omega)]
  · simp only [h, if_false]

/-- The receiver iteration loop with no budget left, when `iterations + skip`
fits an `int`. -/
theorem recv_thread_rounds_zero (opts : Options)
    (hlo : INT_MIN ≤ opts.iterations + opts.skip)
    (hhi : opts.iterations + opts.skip ≤ INT_MAX) (i : Int) :
    recv_thread_rounds opts 0 i
      = if i < opts.iterations + opts.skip then ⟨[], Status.out_of_fuel⟩
        else ⟨[], Status.finished⟩ := by
  rw [recv_thread_rounds]
  simp only [int_add_some _ _ hlo hhi]

/-- One round of the receiver iteration loop, when `iterations + skip` and
the next index fit an `int`. -/
theorem recv_thread_rounds_succ (opts : Options) (hR : 1 ≤ opts.num_threads)
    (hlo : INT_MIN ≤ opts.iterations + opts.skip)
    (hhi : opts.iterations + opts.skip + opts.num_threads ≤ INT_MAX + 1)
    (fuel : Nat) (i : Int) (hi : INT_MIN ≤ i) :
    recv_thread_rounds opts (fuel + 1) i
      = if i < opts.iterations + opts.skip then
          ⟨(if opts.sender_thread > 1 then (⟨i, i, i⟩ : RecvRound) else ⟨i, 1, 2⟩)
            :: (recv_thread_rounds opts fuel (i + opts.num_threads)).rounds,
            (recv_thread_rounds opts fuel (i + opts.num_threads)).status⟩
        else ⟨[], Status.finished⟩ := by
  rw [recv_thread_rounds]
  simp only [int_add_some _ _ hlo (by omega)]
  by_cases h : i < opts.iterations + opts.skip
  · simp only [h, if_true, int_add_some i opts.num_threads (by omega) (by omega)]
  · simp only [h, if_false]

/-- Indices visited by the sender iteration loop, when the `int` operations
of the loop stay in range. -/
theorem send_thread_rounds_indices (opts : Options) (g : Globals)
    (hS : 1 ≤ g.num_threads_sender)
    (hlo : INT_MIN ≤ opts.iterations + opts.skip)
    (hhi : opts.iterations + opts.skip + g.num_threads_sender ≤ INT_MAX + 1) :
    ∀ (fuel : Nat) (i flag : Int), INT_MIN ≤ i →
      (send_thread_rounds opts g fuel i flag).rounds.map (fun r => r.i)
        = stride_indices (opts.iterations + opts.skip) g.num_threads_sender fuel i := by
  intro fuel
  induction fuel with
  | zero =>
    intro i flag _
    rw [send_thread_rounds_zero opts g hlo (by omega)]
    unfold stride_indices
    split <;> rfl
  | succ fuel ih =>
    intro i flag hi
    rw [send_thread_rounds_succ opts g hS hlo hhi fuel i flag hi]
    unfold stride_indices
    by_cases h : i < opts.iterations + opts.skip
    · simp only [h, if_true, List.map_cons, ih _ _ (by omega : INT_MIN ≤ i + g.num_threads_sender)]
      congr 1
      split <;> rfl
    · simp [h]

/-- Indices visited by the receiver iteration loop, when the `int` operations
of the loop stay in range. -/
theorem recv_thread_rounds_indices (opts : Options) (hR : 1 ≤ opts.num_threads)
    (hlo : INT_MIN ≤ opts.iterations + opts.skip)
    (hhi : opts.iterations + opts.skip + opts.num_threads ≤ INT_MAX + 1) :
    ∀ (fuel : Nat) (i : Int), INT_MIN ≤ i →
      (recv_thread_rounds opts fuel i).rounds.map (fun r => r.i)
        = stride_indices (opts.iterations + opts.skip) opts.num_threads fuel i := by
  intro fuel
  induction fuel with
  | zero =>
    intro i _
    rw [recv_thread_rounds_zero opts hlo (by omega)]
    unfold stride_indices
    split <;> rfl
  | succ fuel ih =>
    intro i hi
    rw [recv_thread_rounds_succ opts hR hlo hhi fuel i hi]
    unfold stride_indices
    by_cases h : i < opts.iterations + opts.skip
    · simp only [h, if_true, List.map_cons, ih _ (by omega : INT_MIN ≤ i + opts.num_threads)]
      congr 1
      split <;> rfl
    · simp [h]

/-- With a positive stride the sender iteration loop never uses up its
budget: it ends or it overflows. -/
theorem send_thread_rounds_ends (opts : Options) (g : Globals)
    (hS : 1 ≤ g.num_threads_sender) :
    ∀ (fuel : Nat) (i flag : Int), (opts.iterations + opts.skip - i).toNat ≤ fuel →
      (send_thread_rounds opts g fuel i flag).status ≠ Status.out_of_fuel := by
  intro fuel
  induction fuel with
  | zero =>
    intro i flag hf
    rw [send_thread_rounds]
    cases hb : int_add opts.iterations opts.skip with
    | none => simp
    | some bound =>
      have := int_add_eq _ _ _ hb
      have hn : ¬ i < bound := by omega
      simp [hn]
  | succ fuel ih =>
    intro i flag hf
    rw [send_thread_rounds]
    cases hb : int_add opts.iterations opts.skip with
    | none => simp
    | some bound =>
      have hbe := int_add_eq _ _ _ hb
      by_cases h : i < bound
      · simp only [h, if_true]
        cases hi : int_add i g.num_threads_sender with
        | none => simp
        | some i1 =>
          have hie := int_add_eq _ _ _ hi
          exact ih _ _ (by omega)
      · simp [h]

/-- With a positive stride and the `int` operations in range, the sender
iteration loop ends within its budget. -/
theorem send_thread_rounds_status (opts : Options) (g : Globals)
    (hS : 1 ≤ g.num_threads_sender)
    (hlo : INT_MIN ≤ opts.iterations + opts.skip)
    (hhi : opts.iterations + opts.skip + g.num_threads_sender ≤ INT_MAX + 1) :
    ∀ (fuel : Nat) (i flag : Int), INT_MIN ≤ i →
      (opts.iterations + opts.skip - i).toNat ≤ fuel →
      (send_thread_rounds opts g fuel i flag).status = Status.finished := by
  intro fuel
  induction fuel with
  | zero =>
    intro i flag _ hf
    have : ¬ i < opts.iterations + opts.skip := by omega
    rw [send_thread_rounds_zero opts g hlo (by omega), if_neg this]
  | succ fuel ih =>
    intro i flag hi hf
    rw [send_thread_rounds_succ opts g hS hlo hhi fuel i flag hi]
    by_cases h : i < opts.iterations + opts.skip
    · simp only [h, if_true]
      exact ih _ _ (by omega) (by omega)
    · simp [h]

/-- With a positive stride the receiver iteration loop never uses up its
budget: it ends or it overflows. -/
theorem recv_thread_rounds_ends (opts : Options) (hR : 1 ≤ opts.num_threads) :
    ∀ (fuel : Nat) (i : Int), (opts.iterations + opts.skip - i).toNat ≤ fuel →
      (recv_thread_rounds opts fuel i).status ≠ Status.out_of_fuel := by
  intro fuel
  induction fuel with
  | zero =>
    intro i hf
    rw [recv_thread_rounds]
    cases hb : int_add opts.iterations opts.skip with
    | none => simp
    | some bound =>
      have := int_add_eq _ _ _ hb
      have hn : ¬ i < bound := by omega
      simp [hn]
  | succ fuel ih =>
    intro i hf
    rw [recv_thread_rounds]
    cases hb : int_add opts.iterations opts.skip with
    | none => simp
    | some bound =>
      have hbe := int_add_eq _ _ _ hb
      by_cases h : i < bound
      · simp only [h, if_true]
        cases hi : int_add i opts.num_threads with
        | none => simp
        | some i1 =>
          have hie := int_add_eq _ _ _ hi
          exact ih _ (by omega)
      · simp [h]

/-- With a positive stride and the `int` operations in range, the receiver
iteration loop ends within its budget. -/
theorem recv_thread_rounds_status (opts : Options) (hR : 1 ≤ opts.num_threads)
    (hlo : INT_MIN ≤ opts.iterations + opts.skip)
    (hhi : opts.iterations + opts.skip + opts.num_threads ≤ INT_MAX + 1) :
    ∀ (fuel : Nat) (i : Int), INT_MIN ≤ i →
      (opts.iterations + opts.skip - i).toNat ≤ fuel →
      (recv_thread_rounds opts fuel i).status = Status.finished := by
  intro fuel
  induction fuel with
  | zero =>
    intro i _ hf
    have : ¬ i < opts.iterations + opts.skip := by omega
    rw [recv_thread_rounds_zero opts hlo (by omega), if_neg this]
  | succ fuel ih =>
    intro i hi hf
    rw [recv_thread_rounds_succ opts hR hlo hhi fuel i hi]
    by_cases h : i < opts.iterations + opts.skip
    · simp only [h, if_true]
      exact ih _ (by omega) (by omega)
    · simp [h]

/-- Membership in the list of loop indices, for a positive stride and enough
budget. -/
theorem mem_stride_indices (N S : Int) (hS : 1 ≤ S) :
    ∀ (fuel : Nat) (i x : Int), (N - i).toNat ≤ fuel →
      (x ∈ stride_indices N S fuel i ↔ i ≤ x ∧ x < N ∧ S ∣ x - i) := by
  intro fuel
  induction fuel with
  | zero =>
    intro i x hf
    simp only [stride_indices, List.not_mem_nil, false_iff]
    omega
  | succ fuel ih =>
    intro i x hf
    unfold stride_indices
    by_cases h : i < N
    · simp only [h, if_true, List.mem_cons, ih (i + S) x (by omega)]
      constructor
      · rintro (rfl | ⟨h1, h2, h3⟩)
        · exact ⟨le_refl _, h, by simp⟩
        · refine ⟨by omega, h2, ?_⟩
          have : x - i = (x - (i + S)) + S := by ring
          rw [this]
          exact dvd_add h3 (dvd_refl S)
      · rintro ⟨h1, h2, h3⟩
        by_cases hx : x = i
        · exact Or.inl hx
        · right
          have hle : S ≤ x - i := Int.le_of_dvd (by omega) h3
          refine ⟨by omega, h2, ?_⟩
          have : x - (i + S) = (x - i) - S := by ring
          rw [this]
          exact dvd_sub h3 (dvd_refl S)
    · simp only [h, if_false, List.not_mem_nil, false_iff]
      omega

/-- The loop indices are strictly increasing for a positive stride. -/
theorem stride_indices_sorted (N S : Int) (hS : 1 ≤ S) :
    ∀ (fuel : Nat) (i : Int),
      (stride_indices N S fuel i).Pairwise (fun a b => a < b) ∧
      ∀ x ∈ stride_indices N S fuel i, i ≤ x := by
  intro fuel
  induction fuel with
  | zero => intro i; simp [stride_indices]
  | succ fuel ih =>
    intro i
    unfold stride_indices
    by_cases h : i < N
    · simp only [h, if_true, List.pairwise_cons, List.mem_cons]
      obtain ⟨ih1, ih2⟩ := ih (i + S)
      refine ⟨⟨fun x hx => ?_, ih1⟩, ?_⟩
      · have := ih2 x hx
        omega
      · rintro x (rfl | hx)
        · exact le_refl _
        · have := ih2 x hx
          omega
    · simp [h]

/-- No index is visited twice, for a positive stride. -/
theorem stride_indices_nodup (N S : Int) (hS : 1 ≤ S) (fuel : Nat) (i : Int) :
    (stride_indices N S fuel i).Nodup :=
  ((stride_indices_sorted N S hS fuel i).1).imp (fun h => ne_of_lt h)

/-- For a thread identity `val` in `[0, S)`, the loop started at `val` visits
exactly the indices of `[0, N)` that are congruent to `val` modulo `S`. -/
theorem mem_stride_indices_thread (N S val : Int) (h0 : 0 ≤ val) (hv : val < S) (x : Int) :
    (x ∈ stride_indices N S (N - val).toNat val ↔ 0 ≤ x ∧ x < N ∧ x % S = val) := by
  rw [mem_stride_indices N S (by omega) _ _ _ (le_refl _)]
  constructor
  · rintro ⟨h1, h2, h3⟩
    refine ⟨by omega, h2, ?_⟩
    have h4 : x % S = val % S := (Int.emod_eq_emod_iff_emod_sub_eq_zero).2
      (Int.emod_eq_zero_of_dvd h3)
    rw [h4, Int.emod_eq_of_lt h0 hv]
  · rintro ⟨h1, h2, h3⟩
    have hq : 0 ≤ x / S := Int.ediv_nonneg h1 (by omega)
    have hm : 0 ≤ S * (x / S) := mul_nonneg (by omega) hq
    have hd : x % S = x - S * (x / S) := Int.emod_def x S
    refine ⟨by omega, h2, ?_⟩
    rw [← h3]
    exact Int.dvd_sub_of_emod_eq rfl

/-- Number of times an index is visited by thread `val`. -/
theorem count_stride_indices_thread (N S val : Int) (h0 : 0 ≤ val) (hv : val < S) (x : Int) :
    (stride_indices N S (N - val).toNat val).count x
      = if 0 ≤ x ∧ x < N ∧ x % S = val then 1 else 0 := by
  by_cases h : 0 ≤ x ∧ x < N ∧ x % S = val
  · rw [if_pos h]
    exact List.count_eq_one_of_mem (stride_indices_nodup N S (by omega) _ _)
      ((mem_stride_indices_thread N S val h0 hv x).2 h)
  · rw [if_neg h]
    exact List.count_eq_zero_of_not_mem
      (fun hm => h ((mem_stride_indices_thread N S val h0 hv x).1 hm))

/-- The final `flag_print` of the sender iteration loop, when the `int`
operations of the loop stay in range: set exactly when the index
`options.skip` is one of the visited indices. -/
theorem send_thread_rounds_flag (opts : Options) (g : Globals)
    (hS : 1 ≤ g.num_threads_sender)
    (hlo : INT_MIN ≤ opts.iterations + opts.skip)
    (hhi : opts.iterations + opts.skip + g.num_threads_sender ≤ INT_MAX + 1) :
    ∀ (fuel : Nat) (i flag : Int), INT_MIN ≤ i →
      (send_thread_rounds opts g fuel i flag).flag_print
        = if opts.skip ∈ stride_indices (opts.iterations + opts.skip) g.num_threads_sender fuel i
          then 1 else flag := by
  intro fuel
  induction fuel with
  | zero =>
    intro i flag _
    rw [send_thread_rounds_zero opts g hlo (by omega)]
    unfold stride_indices
    split <;> simp
  | succ fuel ih =>
    intro i flag hi
    rw [send_thread_rounds_succ opts g hS hlo hhi fuel i flag hi]
    unfold stride_indices
    by_cases h : i < opts.iterations + opts.skip
    · simp only [h, if_true, ih _ _ (by omega : INT_MIN ≤ i + g.num_threads_sender),
        List.mem_cons]
      by_cases hm : opts.skip ∈ stride_indices (opts.iterations + opts.skip)
          g.num_threads_sender fuel (i + g.num_threads_sender)
      · simp [hm]
      · by_cases he : i = opts.skip
        · simp [hm, he]
        · have he' : ¬ opts.skip = i := fun h => he h.symm
          simp [hm, he, he']
    · simp [h]

/-- Tags and timer mark of every round of the sender iteration loop. -/
theorem send_thread_rounds_mem (opts : Options) (g : Globals) :
    ∀ (fuel : Nat) (i flag : Int), ∀ r ∈ (send_thread_rounds opts g fuel i flag).rounds,
      r.t_start_set = decide (r.i = opts.skip) ∧
      r.send_tag = (if opts.sender_thread > 1 then r.i else 1) ∧
      r.recv_tag = (if opts.sender_thread > 1 then r.i else 2) := by
  intro fuel
  induction fuel with
  | zero =>
    intro i flag r hr
    rw [send_thread_rounds] at hr
    split at hr
    · simp at hr
    · split at hr <;> simp at hr
  | succ fuel ih =>
    intro i flag r hr
    have hhead : ∀ r0 : SendRound,
        r0 = (if opts.sender_thread > 1 then (⟨i, decide (i = opts.skip), i, i⟩ : SendRound)
          else ⟨i, decide (i = opts.skip), 1, 2⟩) →
        r0.t_start_set = decide (r0.i = opts.skip) ∧
        r0.send_tag = (if opts.sender_thread > 1 then r0.i else 1) ∧
        r0.recv_tag = (if opts.sender_thread > 1 then r0.i else 2) := by
      intro r0 h0
      subst h0
      by_cases ht : opts.sender_thread > 1 <;> simp [ht]
    rw [send_thread_rounds] at hr
    cases hb : int_add opts.iterations opts.skip with
    | none => simp [hb] at hr
    | some bound =>
      simp only [hb] at hr
      by_cases h : i < bound
      · simp only [h, if_true] at hr
        cases hi : int_add i g.num_threads_sender with
        | none =>
          simp only [hi, List.mem_singleton] at hr
          exact hhead r hr
        | some i1 =>
          simp only [hi, List.mem_cons] at hr
          rcases hr with hr | hr
          · exact hhead r hr
          · exact ih _ _ r hr
      · simp [h] at hr

/-- Tags of every round of the receiver iteration loop. -/
theorem recv_thread_rounds_mem (opts : Options) :
    ∀ (fuel : Nat) (i : Int), ∀ r ∈ (recv_thread_rounds opts fuel i).rounds,
      r.recv_tag = (if opts.sender_thread > 1 then r.i else 1) ∧
      r.send_tag = (if opts.sender_thread > 1 then r.i else 2) := by
  intro fuel
  induction fuel with
  | zero =>
    intro i r hr
    rw [recv_thread_rounds] at hr
    split at hr
    · simp at hr
    · split at hr <;> simp at hr
  | succ fuel ih =>
    intro i r hr
    have hhead : ∀ r0 : RecvRound,
        r0 = (if opts.sender_thread > 1 then (⟨i, i, i⟩ : RecvRound) else ⟨i, 1, 2⟩) →
        r0.recv_tag = (if opts.sender_thread > 1 then r0.i else 1) ∧
        r0.send_tag = (if opts.sender_thread > 1 then r0.i else 2) := by
      intro r0 h0
      subst h0
      by_cases ht : opts.sender_thread > 1 <;> simp [ht]
    rw [recv_thread_rounds] at hr
    cases hb : int_add opts.iterations opts.skip with
    | none => simp [hb] at hr
    | some bound =>
      simp only [hb] at hr
      by_cases h : i < bound
      · simp only [h, if_true] at hr
        cases hi : int_add i opts.num_threads with
        | none =>
          simp only [hi, List.mem_singleton] at hr
          exact hhead r hr
        | some i1 =>
          simp only [hi, List.mem_cons] at hr
          rcases hr with hr | hr
          · exact hhead r hr
          · exact ih _ r hr
      · simp [h] at hr

/-! ## Lemmas on the size loops -/

/-- The switch keeps every option except `iterations` and `skip`. -/
theorem switch_large_fields (L : Int) (opts : Options) (size : Int) :
    (switch_large L opts size).max_message_size = opts.max_message_size ∧
    (switch_large L opts size).sender_thread = opts.sender_thread ∧
    (switch_large L opts size).num_threads = opts.num_threads ∧
    (switch_large L opts size).iterations_large = opts.iterations_large ∧
    (switch_large L opts size).skip_large = opts.skip_large := by
  unfold switch_large
  split <;> simp

/-- Every epoch of a sender thread is the epoch body run with options that
differ from the initial ones in `iterations` and `skip` only. -/
theorem send_thread_loop_epochs (L : Int) (g : Globals) (val : Int) :
    ∀ (fuel : Nat) (opts : Options) (size : Int),
      ∀ e ∈ (send_thread_loop L g val fuel opts size).epochs,
        ∃ opts1 size1, e = send_thread_epoch opts1 g val size1 ∧
          opts1.sender_thread = opts.sender_thread ∧
          opts1.num_threads = opts.num_threads := by
  intro fuel
  induction fuel with
  | zero => intro opts size e he; unfold send_thread_loop at he; split at he <;> simp at he
  | succ fuel ih =>
    intro opts size e he
    unfold send_thread_loop at he
    have hsw := switch_large_fields L opts size
    by_cases h : size ≤ opts.max_message_size
    · simp only [h, if_true] at he
      have hhead : ∃ opts1 size1, send_thread_epoch (switch_large L opts size) g val size
          = send_thread_epoch opts1 g val size1 ∧
          opts1.sender_thread = opts.sender_thread ∧ opts1.num_threads = opts.num_threads :=
        ⟨_, _, rfl, hsw.2.1, hsw.2.2.1⟩
      split at he
      · simp only [List.mem_singleton] at he
        subst he
        exact hhead
      · split at he
        · simp only [List.mem_cons] at he
          rcases he with rfl | he
          · exact hhead
          · obtain ⟨o, s1, h1, h2, h3⟩ := ih _ _ e he
            exact ⟨o, s1, h1, h2.trans hsw.2.1, h3.trans hsw.2.2.1⟩
        · simp only [List.mem_singleton] at he
          subst he
          exact hhead
    · simp [h] at he

/-- Every epoch of a receiver thread is the epoch body run with options that
differ from the initial ones in `iterations` and `skip` only. -/
theorem recv_thread_loop_epochs (L : Int) (val : Int) :
    ∀ (fuel : Nat) (opts : Options) (size : Int),
      ∀ e ∈ (recv_thread_loop L val fuel opts size).epochs,
        ∃ opts1 size1, e = recv_thread_epoch opts1 val size1 ∧
          opts1.sender_thread = opts.sender_thread ∧
          opts1.num_threads = opts.num_threads := by
  intro fuel
  induction fuel with
  | zero => intro opts size e he; unfold recv_thread_loop at he; split at he <;> simp at he
  | succ fuel ih =>
    intro opts size e he
    unfold recv_thread_loop at he
    have hsw := switch_large_fields L opts size
    by_cases h : size ≤ opts.max_message_size
    · simp only [h, if_true] at he
      have hhead : ∃ opts1 size1, recv_thread_epoch (switch_large L opts size) val size
          = recv_thread_epoch opts1 val size1 ∧
          opts1.sender_thread = opts.sender_thread ∧ opts1.num_threads = opts.num_threads :=
        ⟨_, _, rfl, hsw.2.1, hsw.2.2.1⟩
      split at he
      · simp only [List.mem_singleton] at he
        subst he
        exact hhead
      · split at he
        · simp only [List.mem_cons] at he
          rcases he with rfl | he
          · exact hhead
          · obtain ⟨o, s1, h1, h2, h3⟩ := ih _ _ e he
            exact ⟨o, s1, h1, h2.trans hsw.2.1, h3.trans hsw.2.2.1⟩
        · simp only [List.mem_singleton] at he
          subst he
          exact hhead
    · simp [h] at he

/-- When the sender count is positive, the sizes and the outcome of a sender
thread are those of the loop header alone. -/
theorem send_thread_loop_sizes (L : Int) (g : Globals) (val : Int)
    (hS : 1 ≤ g.num_threads_sender) :
    ∀ (fuel : Nat) (opts : Options) (size : Int),
      ((send_thread_loop L g val fuel opts size).epochs.map (fun e => e.size),
        (send_thread_loop L g val fuel opts size).status)
        = size_loop opts.max_message_size fuel size := by
  intro fuel
  induction fuel with
  | zero => intro opts size; unfold send_thread_loop size_loop; split <;> rfl
  | succ fuel ih =>
    intro opts size
    unfold send_thread_loop size_loop
    by_cases h : size ≤ opts.max_message_size
    · have hst : (send_thread_iterations (switch_large L opts size) g val).status
          ≠ Status.out_of_fuel :=
        send_thread_rounds_ends _ g hS _ _ _ (le_refl _)
      simp only [h, if_true, hst, if_false]
      cases hn : next_size size with
      | none => simp [send_thread_epoch]
      | some s1 =>
        have := ih (switch_large L opts size) s1
        rw [(switch_large_fields L opts size).1] at this
        simp only [List.map_cons, ← this]
        simp [send_thread_epoch]
    · simp [h]

/-- When the receiver count is positive, the sizes and the outcome of a
receiver thread are those of the loop header alone. -/
theorem recv_thread_loop_sizes (L : Int) (val : Int) :
    ∀ (fuel : Nat) (opts : Options) (size : Int), 1 ≤ opts.num_threads →
      ((recv_thread_loop L val fuel opts size).epochs.map (fun e => e.size),
        (recv_thread_loop L val fuel opts size).status)
        = size_loop opts.max_message_size fuel size := by
  intro fuel
  induction fuel with
  | zero => intro opts size _; unfold recv_thread_loop size_loop; split <;> rfl
  | succ fuel ih =>
    intro opts size hR
    unfold recv_thread_loop size_loop
    have hsw := switch_large_fields L opts size
    by_cases h : size ≤ opts.max_message_size
    · have hst : (recv_thread_iterations (switch_large L opts size) val).status
          ≠ Status.out_of_fuel :=
        recv_thread_rounds_ends _ (by rw [hsw.2.2.1]; exact hR) _ _ (le_refl _)
      simp only [h, if_true, hst, if_false]
      cases hn : next_size size with
      | none => simp [recv_thread_epoch]
      | some s1 =>
        have := ih (switch_large L opts size) s1 (by rw [hsw.2.2.1]; exact hR)
        rw [hsw.1] at this
        simp only [List.map_cons, ← this]
        simp [recv_thread_epoch]
    · simp [h]

/-- Closed form of the loop header started at a positive size, when the
doubling never overflows. -/
theorem size_loop_closed_form (M : Int) :
    ∀ (fuel : Nat) (size : Int), 1 ≤ size → (size ≤ INT_MAX ∨ 1 ≤ fuel) →
      INT_MAX < size * 2 ^ fuel → (size_loop M fuel size).2 ≠ Status.overflow →
      (size_loop M fuel size).2 = Status.finished ∧
      ∃ n : Nat, (∀ k : Nat, k < n ↔ size * 2 ^ k ≤ M) ∧
        (size_loop M fuel size).1 = (List.range n).map (fun (k : Nat) => size * 2 ^ k) := by
  intro fuel
  induction fuel with
  | zero =>
    intro size h1 hd hf _
    simp at hf
    omega
  | succ fuel ih =>
    intro size h1 _ hf hno
    unfold size_loop at hno ⊢
    by_cases h : size ≤ M
    · simp only [h, if_true] at hno ⊢
      cases hn : next_size size with
      | none => simp [hn] at hno
      | some s1 =>
        simp only [hn] at hno ⊢
        have hs1 : s1 = size * 2 ∧ size * 2 ≤ INT_MAX := by
          unfold next_size at hn
          have hne : size ≠ 0 := by omega
          simp only [hne, ne_eq, not_false_eq_true, if_true] at hn
          split at hn
          · simp at hn; omega
          · simp at hn
        obtain ⟨rfl, hmax⟩ := hs1
        have hf' : INT_MAX < size * 2 * 2 ^ fuel := by
          have : size * 2 ^ (fuel + 1) = size * 2 * 2 ^ fuel := by ring
          omega
        obtain ⟨ihs, n, ihn, ihl⟩ := ih (size * 2) (by omega) (Or.inl hmax) hf' hno
        refine ⟨ihs, n + 1, ?_, ?_⟩
        · intro k
          cases k with
          | zero => simp; exact h
          | succ k =>
            have : size * 2 ^ (k + 1) = size * 2 * 2 ^ k := by ring
            rw [this, ← ihn k]
            omega
        · rw [ihl, List.range_succ_eq_map, List.map_cons, List.map_map]
          simp only [pow_zero, mul_one, List.cons.injEq, true_and]
          apply List.map_congr_left
          intro k _
          simp only [Function.comp, Nat.succ_eq_add_one, pow_succ]
          ring
    · simp only [h, if_false, true_and]
      refine ⟨0, ?_, by simp⟩
      intro k
      simp only [Nat.not_lt_zero, false_iff, not_le]
      have : (1 : Int) ≤ 2 ^ k := one_le_pow₀ (by norm_num)
      nlinarith

/-- The sizes visited by the loop header are strictly increasing when it is
started at a positive size. -/
theorem size_loop_increasing (M : Int) :
    ∀ (fuel : Nat) (size : Int), 1 ≤ size →
      (size_loop M fuel size).1.Pairwise (fun a b => a < b) ∧
      ∀ x ∈ (size_loop M fuel size).1, size ≤ x := by
  intro fuel
  induction fuel with
  | zero => intro size _; unfold size_loop; split <;> simp
  | succ fuel ih =>
    intro size h1
    unfold size_loop
    by_cases h : size ≤ M
    · simp only [h, if_true]
      cases hn : next_size size with
      | none => simp
      | some s1 =>
        have hs1 : s1 = size * 2 := by
          unfold next_size at hn
          have hne : size ≠ 0 := by omega
          simp only [hne, ne_eq, not_false_eq_true, if_true] at hn
          split at hn
          · simp at hn; omega
          · simp at hn
        subst hs1
        obtain ⟨ih1, ih2⟩ := ih (size * 2) (by omega)
        simp only [List.pairwise_cons, List.mem_cons]
        refine ⟨⟨fun x hx => ?_, ih1⟩, ?_⟩
        · have := ih2 x hx
          omega
        · rintro x (rfl | hx)
          · exact le_refl _
          · have := ih2 x hx
            omega
    · simp [h]

/-- One pass through the switch: the counts in force for the current size,
and the invariant handed to the next size.  The invariant says that either
the counts are still the configured ones `I`, `K`, or the current size is
above the threshold and the counts are the large ones `IL`, `SL`. -/
theorem switch_large_step (L : Int) (hL : 0 ≤ L) (I K IL SL : Int) (opts : Options)
    (size : Int) (hIL : opts.iterations_large = IL) (hSL : opts.skip_large = SL)
    (hst : (opts.iterations = I ∧ opts.skip = K) ∨
      (L < size ∧ opts.iterations = IL ∧ opts.skip = SL)) :
    ((size ≤ L → (switch_large L opts size).iterations = I ∧
        (switch_large L opts size).skip = K) ∧
      (L < size → (switch_large L opts size).iterations = IL ∧
        (switch_large L opts size).skip = SL)) ∧
    ∀ s1, next_size size = some s1 →
      (((switch_large L opts size).iterations = I ∧ (switch_large L opts size).skip = K) ∨
        (L < s1 ∧ (switch_large L opts size).iterations = IL ∧
          (switch_large L opts size).skip = SL)) := by
  by_cases h : size > L
  · have hsw : switch_large L opts size
        = { opts with iterations := opts.iterations_large, skip := opts.skip_large } := by
      simp [switch_large, h]
    rw [hsw]
    refine ⟨⟨fun h' => by omega, fun _ => ⟨hIL, hSL⟩⟩, ?_⟩
    intro s1 hn
    right
    refine ⟨?_, hIL, hSL⟩
    unfold next_size at hn
    have hne : size ≠ 0 := by omega
    simp only [hne, ne_eq, not_false_eq_true, if_true] at hn
    split at hn
    · simp at hn; omega
    · simp at hn
  · have hsw : switch_large L opts size = opts := by simp [switch_large, h]
    rw [hsw]
    have hA : opts.iterations = I ∧ opts.skip = K := by
      rcases hst with hA | ⟨hB, _⟩
      · exact hA
      · omega
    exact ⟨⟨fun _ => hA, fun h' => by omega⟩, fun _ _ => Or.inl hA⟩

/-- The counts in force in every epoch of a sender thread. -/
theorem send_thread_loop_counts (L : Int) (hL : 0 ≤ L) (g : Globals) (val : Int)
    (I K IL SL : Int) :
    ∀ (fuel : Nat) (opts : Options) (size : Int),
      opts.iterations_large = IL → opts.skip_large = SL →
      ((opts.iterations = I ∧ opts.skip = K) ∨
        (L < size ∧ opts.iterations = IL ∧ opts.skip = SL)) →
      ∀ e ∈ (send_thread_loop L g val fuel opts size).epochs,
        (e.size ≤ L → e.iterations = I ∧ e.skip = K) ∧
        (L < e.size → e.iterations = IL ∧ e.skip = SL) := by
  intro fuel
  induction fuel with
  | zero =>
    intro opts size _ _ _ e he
    unfold send_thread_loop at he
    split at he <;> simp at he
  | succ fuel ih =>
    intro opts size hIL hSL hst e he
    unfold send_thread_loop at he
    obtain ⟨hhead, hnext⟩ := switch_large_step L hL I K IL SL opts size hIL hSL hst
    have hsw := switch_large_fields L opts size
    by_cases h : size ≤ opts.max_message_size
    · simp only [h, if_true] at he
      split at he
      · simp only [List.mem_singleton] at he
        subst he
        exact hhead
      · split at he
        · rename_i s1 hn
          simp only [List.mem_cons] at he
          rcases he with rfl | he
          · exact hhead
          · exact ih _ _ (hsw.2.2.2.1.trans hIL) (hsw.2.2.2.2.trans hSL) (hnext s1 hn) e he
        · simp only [List.mem_singleton] at he
          subst he
          exact hhead
    · simp [h] at he

/-- The counts in force in every epoch of a receiver thread. -/
theorem recv_thread_loop_counts (L : Int) (hL : 0 ≤ L) (val : Int)
    (I K IL SL : Int) :
    ∀ (fuel : Nat) (opts : Options) (size : Int),
      opts.iterations_large = IL → opts.skip_large = SL →
      ((opts.iterations = I ∧ opts.skip = K) ∨
        (L < size ∧ opts.iterations = IL ∧ opts.skip = SL)) →
      ∀ e ∈ (recv_thread_loop L val fuel opts size).epochs,
        (e.size ≤ L → e.iterations = I ∧ e.skip = K) ∧
        (L < e.size → e.iterations = IL ∧ e.skip = SL) := by
  intro fuel
  induction fuel with
  | zero =>
    intro opts size _ _ _ e he
    unfold recv_thread_loop at he
    split at he <;> simp at he
  | succ fuel ih =>
    intro opts size hIL hSL hst e he
    unfold recv_thread_loop at he
    obtain ⟨hhead, hnext⟩ := switch_large_step L hL I K IL SL opts size hIL hSL hst
    have hsw := switch_large_fields L opts size
    by_cases h : size ≤ opts.max_message_size
    · simp only [h, if_true] at he
      split at he
      · simp only [List.mem_singleton] at he
        subst he
        exact hhead
      · split at he
        · rename_i s1 hn
          simp only [List.mem_cons] at he
          rcases he with rfl | he
          · exact hhead
          · exact ih _ _ (hsw.2.2.2.1.trans hIL) (hsw.2.2.2.2.trans hSL) (hnext s1 hn) e he
        · simp only [List.mem_singleton] at he
          subst he
          exact hhead
    · simp [h] at he

/-- Counting a value in the concatenation of per-thread lists, when each
thread `id` holds the value once if `c = id` (and `P`) and never otherwise. -/
theorem count_flatMap_range (f : Nat → List Int) (t : Int) (P : Prop) [Decidable P] (c : Int) :
    ∀ n : Nat, (∀ id : Nat, id < n → (f id).count t = if P ∧ c = (id : Int) then 1 else 0) →
      ((List.range n).flatMap f).count t = if P ∧ 0 ≤ c ∧ c < (n : Int) then 1 else 0 := by
  intro n
  induction n with
  | zero =>
    intro _
    have : ¬ (P ∧ 0 ≤ c ∧ c < ((0 : Nat) : Int)) := by
      rintro ⟨_, h1, h2⟩
      simp at h2
      omega
    rw [if_neg this]
    simp
  | succ n ih =>
    intro hf
    rw [List.range_succ, List.flatMap_append, List.count_append,
      ih (fun id hid => hf id (by omega))]
    simp only [List.flatMap_cons, List.flatMap_nil, List.append_nil, hf n (by omega)]
    have hcast : ((n + 1 : Nat) : Int) = (n : Int) + 1 := by push_cast; ring
    by_cases h1 : P ∧ 0 ≤ c ∧ c < (n : Int)
    · have h2 : ¬ (P ∧ c = (n : Int)) := by omega
      have h3 : P ∧ 0 ≤ c ∧ c < ((n + 1 : Nat) : Int) := by
        refine ⟨h1.1, h1.2.1, ?_⟩
        omega
      rw [if_pos h1, if_neg h2, if_pos h3]
    · by_cases h2 : P ∧ c = (n : Int)
      · have h3 : P ∧ 0 ≤ c ∧ c < ((n + 1 : Nat) : Int) := by
          refine ⟨h2.1, ?_, ?_⟩ <;> omega
        rw [if_neg h1, if_pos h2, if_pos h3]
      · have h3 : ¬ (P ∧ 0 ≤ c ∧ c < ((n + 1 : Nat) : Int)) := by
          rintro ⟨hP, h4, h5⟩
          by_cases h6 : c = (n : Int)
          · exact h2 ⟨hP, h6⟩
          · exact h1 ⟨hP, h4, by omega⟩
        rw [if_neg h1, if_neg h2, if_neg h3]

/-- The smallest `int` is negative. -/
theorem INT_MIN_le_zero : INT_MIN ≤ 0 := by decide

/-- Indices of a sender thread as a list of loop indices, when the `int`
operations of the loop stay in range. -/
theorem send_indices_eq (opts : Options) (val : Int)
    (hS : 1 ≤ (main opts).num_threads_sender)
    (hlo : INT_MIN ≤ opts.iterations + opts.skip)
    (hhi : opts.iterations + opts.skip + (main opts).num_threads_sender ≤ INT_MAX + 1)
    (h0 : 0 ≤ val) :
    send_indices opts val
      = stride_indices (opts.iterations + opts.skip) (main opts).num_threads_sender
          (opts.iterations + opts.skip - val).toNat val :=
  send_thread_rounds_indices opts (main opts) hS hlo hhi _ _ _ (le_trans INT_MIN_le_zero h0)

/-- Indices of a receiver thread as a list of loop indices, when the `int`
operations of the loop stay in range. -/
theorem recv_indices_eq (opts : Options) (val : Int)
    (hR : 1 ≤ opts.num_threads)
    (hlo : INT_MIN ≤ opts.iterations + opts.skip)
    (hhi : opts.iterations + opts.skip + opts.num_threads ≤ INT_MAX + 1)
    (h0 : 0 ≤ val) :
    recv_indices opts val
      = stride_indices (opts.iterations + opts.skip) opts.num_threads
          (opts.iterations + opts.skip - val).toNat val :=
  recv_thread_rounds_indices opts hR hlo hhi _ _ (le_trans INT_MIN_le_zero h0)

/-- Outcome of one epoch of sender thread `val` for a positive sender count,
non-negative warm-up and at least one iteration, when the `int` operations of
the iteration loop stay in range. -/
theorem send_thread_epoch_flag (opts : Options) (g : Globals) (val size : Int)
    (h0 : 0 ≤ val) (hv : val < g.num_threads_sender)
    (hskip : 0 ≤ opts.skip) (hit : 1 ≤ opts.iterations)
    (hhi : opts.iterations + opts.skip + g.num_threads_sender ≤ INT_MAX + 1) :
    (send_thread_iterations opts g val).status = Status.finished ∧
    (send_thread_iterations opts g val).flag_print
      = (if val = opts.skip % g.num_threads_sender then 1 else 0) ∧
    (send_thread_epoch opts g val size).latency_line
      = (if val = opts.skip % g.num_threads_sender then some size else none) := by
  have hmin := INT_MIN_le_zero
  have hS : 1 ≤ g.num_threads_sender := by omega
  have hlo : INT_MIN ≤ opts.iterations + opts.skip := by omega
  have hst : (send_thread_iterations opts g val).status = Status.finished :=
    send_thread_rounds_status opts g hS hlo hhi _ _ _ (by omega) (le_refl _)
  have hfl : (send_thread_iterations opts g val).flag_print
      = (if val = opts.skip % g.num_threads_sender then 1 else 0) := by
    unfold send_thread_iterations
    rw [send_thread_rounds_flag opts g hS hlo hhi _ _ _ (by omega)]
    have hm := mem_stride_indices_thread (opts.iterations + opts.skip) g.num_threads_sender
      val h0 hv opts.skip
    by_cases h : val = opts.skip % g.num_threads_sender
    · rw [if_pos (hm.2 ⟨hskip, by omega, h.symm⟩), if_pos h]
    · rw [if_neg (fun hmem => h (hm.1 hmem).2.2.symm), if_neg h]
  refine ⟨hst, hfl, ?_⟩
  unfold send_thread_epoch
  simp only [hst, hfl, true_and]
  by_cases h : val = opts.skip % g.num_threads_sender <;> simp [h]

/-- Sizes of a sender thread as the sizes of the loop header. -/
theorem send_sizes_eq (L : Int) (opts : Options) (val : Int) (fuel : Nat)
    (hS : 1 ≤ (main opts).num_threads_sender) :
    send_sizes L opts val fuel = (size_loop opts.max_message_size fuel opts.min_message_size).1 ∧
    (send_thread L opts val fuel).status
      = (size_loop opts.max_message_size fuel opts.min_message_size).2 := by
  have h := send_thread_loop_sizes L (main opts) val hS fuel opts opts.min_message_size
  exact ⟨congrArg Prod.fst h, congrArg Prod.snd h⟩

/-- Sizes of a receiver thread as the sizes of the loop header. -/
theorem recv_sizes_eq (L : Int) (opts : Options) (val : Int) (fuel : Nat)
    (hR : 1 ≤ opts.num_threads) :
    recv_sizes L opts val fuel = (size_loop opts.max_message_size fuel opts.min_message_size).1 ∧
    (recv_thread L opts val fuel).status
      = (size_loop opts.max_message_size fuel opts.min_message_size).2 := by
  have h := recv_thread_loop_sizes L val fuel opts opts.min_message_size hR
  exact ⟨congrArg Prod.fst h, congrArg Prod.snd h⟩

/-- The loop header started at 0 runs the sizes 0 and 1 first. -/
theorem size_loop_from_zero (M : Int) (hM : 1 ≤ M) (fuel : Nat) (hf : 2 ≤ fuel) :
    ∃ rest, (size_loop M fuel 0).1 = 0 :: 1 :: rest := by
  obtain ⟨f, rfl⟩ : ∃ f, fuel = f + 2 := ⟨fuel - 2, by omega⟩
  have h0 : (0 : Int) ≤ M := by omega
  have hn0 : next_size 0 = some 1 := by decide
  have hn1 : next_size 1 = some 2 := by decide
  refine ⟨(size_loop M f 2).1, ?_⟩
  rw [size_loop]
  simp only [h0, if_true, hn0]
  rw [size_loop]
  simp only [hM, if_true, hn1]

/-- Enough fuel for a size loop started at a positive size. -/
theorem fuel_bound (size : Int) (h1 : 1 ≤ size) (fuel : Nat) (hf : 31 ≤ fuel) :
    INT_MAX < size * 2 ^ fuel := by
  have h2 : (2 : Int) ^ 31 ≤ 2 ^ fuel := pow_le_pow_right₀ (by norm_num) hf
  have h3 : (2 : Int) ^ fuel ≤ size * 2 ^ fuel := le_mul_of_one_le_left (by positivity) h1
  have h4 : INT_MAX < (2 : Int) ^ 31 := by decide
  omega

/-- Tags of every round of every epoch of a sender thread. -/
theorem send_thread_tags (L : Int) (opts : Options) (val : Int) (fuel : Nat) :
    ∀ e ∈ (send_thread L opts val fuel).epochs, ∀ r ∈ e.rounds,
      r.send_tag = (if opts.sender_thread > 1 then r.i else 1) ∧
      r.recv_tag = (if opts.sender_thread > 1 then r.i else 2) := by
  intro e he r hr
  obtain ⟨opts1, size1, rfl, hst, _⟩ := send_thread_loop_epochs L (main opts) val fuel opts _ e he
  have h := send_thread_rounds_mem opts1 (main opts) _ _ _ r hr
  rw [hst] at h
  exact h.2

/-- Tags of every round of every epoch of a receiver thread. -/
theorem recv_thread_tags (L : Int) (opts : Options) (val : Int) (fuel : Nat) :
    ∀ e ∈ (recv_thread L opts val fuel).epochs, ∀ r ∈ e.rounds,
      r.recv_tag = (if opts.sender_thread > 1 then r.i else 1) ∧
      r.send_tag = (if opts.sender_thread > 1 then r.i else 2) := by
  intro e he r hr
  obtain ⟨opts1, size1, rfl, hst, _⟩ := recv_thread_loop_epochs L val fuel opts _ e he
  have h := recv_thread_rounds_mem opts1 _ _ r hr
  rw [hst] at h
  exact h

/-- With per-iteration tags, the tags of a sender thread in one epoch are its
iteration indices. -/
theorem send_tags_eq_indices (opts : Options) (val : Int) (h : 1 < opts.sender_thread) :
    (send_thread_iterations opts (main opts) val).rounds.map (fun r => r.send_tag)
      = send_indices opts val ∧
    (send_thread_iterations opts (main opts) val).rounds.map (fun r => r.recv_tag)
      = send_indices opts val := by
  unfold send_indices
  constructor
  · apply List.map_congr_left
    intro r hr
    have := (send_thread_rounds_mem opts (main opts) _ _ _ r hr).2.1
    simpa [h] using this
  · apply List.map_congr_left
    intro r hr
    have := (send_thread_rounds_mem opts (main opts) _ _ _ r hr).2.2
    simpa [h] using this

/-- With per-iteration tags, the tags of a receiver thread in one epoch are
its iteration indices. -/
theorem recv_tags_eq_indices (opts : Options) (val : Int) (h : 1 < opts.sender_thread) :
    (recv_thread_iterations opts val).rounds.map (fun r => r.recv_tag)
      = recv_indices opts val ∧
    (recv_thread_iterations opts val).rounds.map (fun r => r.send_tag)
      = recv_indices opts val := by
  unfold recv_indices
  constructor
  · apply List.map_congr_left
    intro r hr
    have := (recv_thread_rounds_mem opts _ _ r hr).1
    simpa [h] using this
  · apply List.map_congr_left
    intro r hr
    have := (recv_thread_rounds_mem opts _ _ r hr).2
    simpa [h] using this

/-- Counting a value in the concatenation, over the threads `0 .. S-1`, of
the index lists of a loop with stride `S`. -/
theorem count_all_stride_indices (N S : Int) (hS : 1 ≤ S) (f : Nat → List Int)
    (hf : ∀ id : Nat, f id = stride_indices N S (N - (id : Int)).toNat (id : Int)) (t : Int) :
    ((List.range S.toNat).flatMap f).count t = if 0 ≤ t ∧ t < N then 1 else 0 := by
  have hcast : (S.toNat : Int) = S := Int.toNat_of_nonneg (by omega)
  rw [count_flatMap_range f t (0 ≤ t ∧ t < N) (t % S) S.toNat]
  · have h1 : 0 ≤ t % S := Int.emod_nonneg t (by omega)
    have h2 : t % S < (S.toNat : Int) := by rw [hcast]; exact Int.emod_lt_of_pos t (by omega)
    by_cases h : 0 ≤ t ∧ t < N
    · rw [if_pos ⟨h, h1, h2⟩, if_pos h]
    · rw [if_neg (fun h' => h h'.1), if_neg h]
  · intro id hid
    rw [hf id, count_stride_indices_thread N S (id : Int) (by omega) (by omega) t]
    by_cases h : 0 ≤ t ∧ t < N ∧ t % S = (id : Int)
    · rw [if_pos h, if_pos ⟨⟨h.1, h.2.1⟩, h.2.2⟩]
    · rw [if_neg h, if_neg (fun h' => h ⟨h'.1.1, h'.1.2, h'.2⟩)]

/-- Counting a value in the list `0, 1, ..., n - 1`. -/
theorem count_range_cast (n : Nat) (t : Int) :
    ((List.range n).map (fun (k : Nat) => (k : Int))).count t
      = if 0 ≤ t ∧ t < (n : Int) then 1 else 0 := by
  have hnd : ((List.range n).map (fun (k : Nat) => (k : Int))).Nodup :=
    (List.nodup_range n).map (fun a b h => by simpa using h)
  by_cases h : 0 ≤ t ∧ t < (n : Int)
  · rw [if_pos h]
    apply List.count_eq_one_of_mem hnd
    rw [List.mem_map]
    exact ⟨t.toNat, List.mem_range.2 (by omega), by omega⟩
  · rw [if_neg h]
    apply List.count_eq_zero_of_not_mem
    rw [List.mem_map]
    rintro ⟨k, hk, rfl⟩
    have := List.mem_range.1 hk
    omega

/-! ## Lemmas on the timer-holder -/

/-- Splitting the rounds of a sender loop at the round that records
`t_start`, when the `int` operations of the loop stay in range: when the loop
is entered at an index `i ≤ skip` congruent to `skip` modulo the stride, the
rounds before that round have indices below `skip`, and the remaining rounds
are those of the loop entered at `skip`. -/
theorem send_thread_rounds_split (opts : Options) (g : Globals)
    (hS : 1 ≤ g.num_threads_sender)
    (hlo : INT_MIN ≤ opts.iterations + opts.skip)
    (hhi : opts.iterations + opts.skip + g.num_threads_sender ≤ INT_MAX + 1) :
    ∀ (fuel : Nat) (i flag : Int), INT_MIN ≤ i → i ≤ opts.skip →
      g.num_threads_sender ∣ opts.skip - i →
      (opts.iterations + opts.skip - i).toNat ≤ fuel →
      (∀ r ∈ (send_thread_rounds opts g fuel i flag).rounds.takeWhile
          (fun r => !r.t_start_set), r.i < opts.skip) ∧
      ∃ (fuel1 : Nat) (flag1 : Int), (opts.iterations + opts.skip - opts.skip).toNat ≤ fuel1 ∧
        (send_thread_rounds opts g fuel i flag).rounds.dropWhile (fun r => !r.t_start_set)
          = (send_thread_rounds opts g fuel1 opts.skip flag1).rounds := by
  have hsum : opts.iterations + opts.skip ≤ INT_MAX := by omega
  intro fuel
  induction fuel with
  | zero =>
    intro i flag _ hi _ hf
    have h1 : ¬ i < opts.iterations + opts.skip := by omega
    have h2 : ¬ opts.skip < opts.iterations + opts.skip := by omega
    refine ⟨?_, 0, flag, by omega, ?_⟩
    · rw [send_thread_rounds_zero opts g hlo hsum, if_neg h1]
      simp
    · rw [send_thread_rounds_zero opts g hlo hsum, send_thread_rounds_zero opts g hlo hsum,
        if_neg h1, if_neg h2]
      simp
  | succ fuel ih =>
    intro i flag hmin hi hd hf
    by_cases h : i < opts.iterations + opts.skip
    · by_cases he : i = opts.skip
      · subst he
        have hr : (send_thread_rounds opts g (fuel + 1) opts.skip flag).rounds
            = (if opts.sender_thread > 1 then
                (⟨opts.skip, decide (opts.skip = opts.skip), opts.skip, opts.skip⟩ : SendRound)
              else ⟨opts.skip, decide (opts.skip = opts.skip), 1, 2⟩)
              :: (send_thread_rounds opts g fuel (opts.skip + g.num_threads_sender)
                    (if opts.skip = opts.skip then 1 else flag)).rounds := by
          rw [send_thread_rounds_succ opts g hS hlo hhi fuel _ flag hmin]
          simp only [h, if_true]
        refine ⟨?_, fuel + 1, flag, by omega, ?_⟩
        · rw [hr]
          split <;> simp
        · rw [hr]
          split <;> simp
      · have hlt : i < opts.skip := by omega
        have hle : g.num_threads_sender ≤ opts.skip - i := Int.le_of_dvd (by omega) hd
        have hd1 : g.num_threads_sender ∣ opts.skip - (i + g.num_threads_sender) := by
          have : opts.skip - (i + g.num_threads_sender)
              = (opts.skip - i) - g.num_threads_sender := by ring
          rw [this]
          exact dvd_sub hd (dvd_refl _)
        obtain ⟨ih1, f1, fl1, ih2, ih3⟩ := ih (i + g.num_threads_sender)
          flag (by omega) (by omega) hd1 (by omega)
        have hr : (send_thread_rounds opts g (fuel + 1) i flag).rounds
            = (if opts.sender_thread > 1 then (⟨i, false, i, i⟩ : SendRound)
              else ⟨i, false, 1, 2⟩)
              :: (send_thread_rounds opts g fuel (i + g.num_threads_sender) flag).rounds := by
          rw [send_thread_rounds_succ opts g hS hlo hhi fuel i flag hmin]
          simp only [h, if_true, he, if_false, decide_False]
        refine ⟨?_, f1, fl1, ih2, ?_⟩
        · rw [hr]
          intro r hr1
          by_cases ht : opts.sender_thread > 1
          · simp only [ht, if_true, Bool.not_false,
              List.takeWhile_cons_of_pos, List.mem_cons] at hr1
            rcases hr1 with rfl | hr1
            · exact hlt
            · exact ih1 r hr1
          · simp only [ht, if_false, Bool.not_false,
              List.takeWhile_cons_of_pos, List.mem_cons] at hr1
            rcases hr1 with rfl | hr1
            · exact hlt
            · exact ih1 r hr1
        · rw [hr, ← ih3]
          by_cases ht : opts.sender_thread > 1
          · simp only [ht, if_true, Bool.not_false, List.dropWhile_cons_of_pos]
          · simp only [ht, if_false, Bool.not_false, List.dropWhile_cons_of_pos]
    · have h2 : ¬ opts.skip < opts.iterations + opts.skip := by omega
      refine ⟨?_, 0, flag, by omega, ?_⟩
      · rw [send_thread_rounds_succ opts g hS hlo hhi fuel i flag hmin, if_neg h]
        simp
      · rw [send_thread_rounds_succ opts g hS hlo hhi fuel i flag hmin,
          send_thread_rounds_zero opts g hlo hsum, if_neg h, if_neg h2]
        simp

/-- Number of indices visited by a loop with a positive stride and enough
budget: the least `c` with `N ≤ i + c * S`. -/
theorem stride_indices_length (N S : Int) (hS : 1 ≤ S) :
    ∀ (fuel : Nat) (i : Int), (N - i).toNat ≤ fuel →
      N ≤ i + ((stride_indices N S fuel i).length : Int) * S ∧
      (i < N → i + (((stride_indices N S fuel i).length : Int) - 1) * S < N) := by
  intro fuel
  induction fuel with
  | zero =>
    intro i hf
    simp only [stride_indices, List.length_nil]
    constructor
    · simp; omega
    · intro h; omega
  | succ fuel ih =>
    intro i hf
    unfold stride_indices
    by_cases h : i < N
    · simp only [h, if_true, List.length_cons]
      obtain ⟨ih1, ih2⟩ := ih (i + S) (by omega)
      have hc : (((stride_indices N S fuel (i + S)).length + 1 : Nat) : Int)
          = ((stride_indices N S fuel (i + S)).length : Int) + 1 := by push_cast; ring
      rw [hc]
      constructor
      · have : i + (((stride_indices N S fuel (i + S)).length : Int) + 1) * S
            = i + S + ((stride_indices N S fuel (i + S)).length : Int) * S := by ring
        rw [this]
        exact ih1
      · intro _
        have e1 : i + (((stride_indices N S fuel (i + S)).length : Int) + 1 - 1) * S
            = i + ((stride_indices N S fuel (i + S)).length : Int) * S := by ring
        rw [e1]
        by_cases h2 : i + S < N
        · have := ih2 h2
          have e2 : i + S + (((stride_indices N S fuel (i + S)).length : Int) - 1) * S
              = i + ((stride_indices N S fuel (i + S)).length : Int) * S := by ring
          rw [e2] at this
          exact this
        · have hnil : stride_indices N S fuel (i + S) = [] := by
            cases fuel with
            | zero => rfl
            | succ f => simp [stride_indices, h2]
          rw [hnil]
          simp
          exact h
    · rw [if_neg h]
      simp only [List.length_nil]
      constructor
      · simp; omega
      · intro h'; omega

/-- The rounds of the timer-holder, split at the round that records
`t_start`, when the `int` operations of the loop stay in range: the indices
before it are below `skip`, and the rounds from it on are those of the loop
entered at `skip`, whose number `c` is the least with `iterations ≤ c * S`. -/
theorem timer_holder_split (opts : Options)
    (hS : 1 ≤ (main opts).num_threads_sender) (hskip : 0 ≤ opts.skip)
    (hit : 1 ≤ opts.iterations)
    (hhi : opts.iterations + opts.skip + (main opts).num_threads_sender ≤ INT_MAX + 1) :
    (∀ r ∈ rounds_before_t_start opts, r.i < opts.skip) ∧
    (∃ (fuel1 : Nat) (flag1 : Int), 1 ≤ fuel1 ∧
      rounds_from_t_start opts
        = (send_thread_rounds opts (main opts) fuel1 opts.skip flag1).rounds) ∧
    opts.iterations ≤ ((rounds_from_t_start opts).length : Int) * (main opts).num_threads_sender ∧
    (((rounds_from_t_start opts).length : Int) - 1) * (main opts).num_threads_sender
      < opts.iterations := by
  have hmin := INT_MIN_le_zero
  have hlo : INT_MIN ≤ opts.iterations + opts.skip := by omega
  have hq : 0 ≤ opts.skip / (main opts).num_threads_sender := Int.ediv_nonneg hskip (by omega)
  have hm : 0 ≤ (main opts).num_threads_sender * (opts.skip / (main opts).num_threads_sender) :=
    mul_nonneg (by omega) hq
  have hdef := Int.emod_def opts.skip (main opts).num_threads_sender
  have hle : opts.skip % (main opts).num_threads_sender ≤ opts.skip := by omega
  have hv0 : 0 ≤ opts.skip % (main opts).num_threads_sender := Int.emod_nonneg _ (by omega)
  have hd : (main opts).num_threads_sender
      ∣ opts.skip - opts.skip % (main opts).num_threads_sender :=
    Int.dvd_sub_of_emod_eq rfl
  obtain ⟨hb, f1, fl1, hf1, hdrop⟩ := send_thread_rounds_split opts (main opts) hS hlo hhi
    (opts.iterations + opts.skip - opts.skip % (main opts).num_threads_sender).toNat
    (opts.skip % (main opts).num_threads_sender) 0 (by omega) hle hd (le_refl _)
  have hfrom : rounds_from_t_start opts
      = (send_thread_rounds opts (main opts) f1 opts.skip fl1).rounds := hdrop
  have hlen : (rounds_from_t_start opts).length
      = (stride_indices (opts.iterations + opts.skip) (main opts).num_threads_sender
          f1 opts.skip).length := by
    rw [hfrom, ← send_thread_rounds_indices opts (main opts) hS hlo hhi f1 opts.skip fl1
      (by omega), List.length_map]
  obtain ⟨l1, l2⟩ := stride_indices_length (opts.iterations + opts.skip)
    (main opts).num_threads_sender hS f1 opts.skip hf1
  rw [← hlen] at l1 l2
  refine ⟨hb, ⟨f1, fl1, by omega, hfrom⟩, by omega, ?_⟩
  have := l2 (by omega)
  omega

/-! ## The claims -/

/-- C1: for every sender count `S ≥ 1`, receiver count `R ≥ 1` and number of
epochs `E`, the `E * S` successive arrivals at the sender coordinator that
follow `main` (counter 1) call the cross-process barrier exactly `E` times,
the `k`-th arrival calling it exactly when `S` divides `k`; the same holds for
the receiver coordinator with `R`. -/
theorem barrier_invoked_once_per_epoch (opts : Options)
    (hS : 1 ≤ (main opts).num_threads_sender) (hR : 1 ≤ opts.num_threads) (E : Nat) :
    ((arrivals send_thread_arrive (E * (main opts).num_threads_sender.toNat)
        (main opts)).1.count true = E ∧
      ∀ k : Nat, 1 ≤ k → k ≤ E * (main opts).num_threads_sender.toNat →
        (arrivals send_thread_arrive (E * (main opts).num_threads_sender.toNat)
          (main opts)).1[k - 1]? = some (decide ((main opts).num_threads_sender ∣ (k : Int)))) ∧
    ((arrivals (recv_thread_arrive opts) (E * opts.num_threads.toNat)
        (main opts)).1.count true = E ∧
      ∀ k : Nat, 1 ≤ k → k ≤ E * opts.num_threads.toNat →
        (arrivals (recv_thread_arrive opts) (E * opts.num_threads.toNat)
          (main opts)).1[k - 1]? = some (decide (opts.num_threads ∣ (k : Int)))) := by
  constructor
  · obtain ⟨hc, hp⟩ := flags_count_and_positions _ hS _ _
      (send_arrivals_spec opts hS (E * (main opts).num_threads_sender.toNat)).1
    refine ⟨?_, hp⟩
    rw [hc]
    exact Nat.mul_div_cancel E (by omega)
  · obtain ⟨hc, hp⟩ := flags_count_and_positions _ hR _ _
      (recv_arrivals_spec opts hR (E * opts.num_threads.toNat)).1
    refine ⟨?_, hp⟩
    rw [hc]
    exact Nat.mul_div_cancel E (by omega)

/-- Witness for C1: the scenario of the specification with three epochs. -/
theorem barrier_invoked_once_per_epoch_witness :
    1 ≤ (main scenario).num_threads_sender ∧ 1 ≤ scenario.num_threads ∧
    (arrivals send_thread_arrive (3 * (main scenario).num_threads_sender.toNat)
      (main scenario)).1.count true = 3 ∧
    (arrivals (recv_thread_arrive scenario) (3 * scenario.num_threads.toNat)
      (main scenario)).1.count true = 3 :=
  ⟨by decide, by decide,
    (barrier_invoked_once_per_epoch scenario (by decide) (by decide) 3).1.1,
    (barrier_invoked_once_per_epoch scenario (by decide) (by decide) 3).2.1⟩

/-- C2, counterexample: with two sender threads, `iterations = 2147483647`
and `skip = 1`, the sum `iterations + skip` does not fit an `int`; the
iteration loop of each sender thread overflows without visiting any index, so
the index sets do not cover `[0, iterations + skip)`. -/
theorem sender_iterations_partition_counterexample :
    1 ≤ (main scenario_int_max).num_threads_sender ∧
    0 ≤ scenario_int_max.iterations + scenario_int_max.skip ∧
    (send_thread_iterations scenario_int_max (main scenario_int_max) 0).status
      = Status.overflow ∧
    (send_thread_iterations scenario_int_max (main scenario_int_max) 1).status
      = Status.overflow ∧
    send_indices scenario_int_max 0 = [] ∧ send_indices scenario_int_max 1 = [] ∧
    ¬ (∀ x, 0 ≤ x ∧ x < scenario_int_max.iterations + scenario_int_max.skip →
        ∃ val, 0 ≤ val ∧ val < (main scenario_int_max).num_threads_sender ∧
          x ∈ send_indices scenario_int_max val) := by
  have e0 : send_indices scenario_int_max 0 = [] := by decide
  have e1 : send_indices scenario_int_max 1 = [] := by decide
  refine ⟨by decide, by decide, by decide, by decide, e0, e1, ?_⟩
  intro h
  obtain ⟨val, h0, h1, hm⟩ := h 0 ⟨by decide, by decide⟩
  have hS : (main scenario_int_max).num_threads_sender = 2 := by decide
  rw [hS] at h1
  have hv : val = 0 ∨ val = 1 := by omega
  rcases hv with rfl | rfl
  · rw [e0] at hm
    exact absurd hm (List.not_mem_nil _)
  · rw [e1] at hm
    exact absurd hm (List.not_mem_nil _)

/-- C2, amended: for every sender count `S ≥ 1` and every
`N = iterations + skip ≥ 0` with `N + S ≤ INT_MAX + 1`, so that neither the
sum nor a step of the index overflows, the iteration loop of each sender
thread ends, every index is visited by thread `val` once if it lies in
`[0, N)` and is congruent to `val` modulo `S`, and never otherwise; so the
index sets of different threads are disjoint and their union is `[0, N)`.
For `S = 2` and `N = 4` the sets are `{0, 2}` and `{1, 3}`. -/
theorem sender_iterations_partition (opts : Options)
    (hS : 1 ≤ (main opts).num_threads_sender)
    (hN : 0 ≤ opts.iterations + opts.skip)
    (hhi : opts.iterations + opts.skip + (main opts).num_threads_sender ≤ INT_MAX + 1) :
    (∀ val, 0 ≤ val → val < (main opts).num_threads_sender →
      (send_thread_iterations opts (main opts) val).status = Status.finished ∧
      ∀ x, (send_indices opts val).count x
        = if 0 ≤ x ∧ x < opts.iterations + opts.skip ∧
            x % (main opts).num_threads_sender = val then 1 else 0) ∧
    (∀ v1 v2, 0 ≤ v1 → v1 < (main opts).num_threads_sender →
      0 ≤ v2 → v2 < (main opts).num_threads_sender → v1 ≠ v2 →
      List.Disjoint (send_indices opts v1) (send_indices opts v2)) ∧
    (∀ x, (0 ≤ x ∧ x < opts.iterations + opts.skip) ↔
      ∃ val, 0 ≤ val ∧ val < (main opts).num_threads_sender ∧ x ∈ send_indices opts val) ∧
    ((main opts).num_threads_sender = 2 → opts.iterations + opts.skip = 4 →
      send_indices opts 0 = [0, 2] ∧ send_indices opts 1 = [1, 3]) := by
  have hmin := INT_MIN_le_zero
  have hlo : INT_MIN ≤ opts.iterations + opts.skip := by omega
  have heq := fun val (h0 : 0 ≤ val) => send_indices_eq opts val hS hlo hhi h0
  refine ⟨?_, ?_, ?_, ?_⟩
  · intro val h0 hv
    refine ⟨send_thread_rounds_status opts (main opts) hS hlo hhi _ _ _ (by omega) (le_refl _),
      fun x => ?_⟩
    rw [heq val h0]
    exact count_stride_indices_thread _ _ val h0 hv x
  · intro v1 v2 h1 h1' h2 h2' hne x hx1 hx2
    rw [heq v1 h1] at hx1
    rw [heq v2 h2] at hx2
    have a := (mem_stride_indices_thread _ _ v1 h1 h1' x).1 hx1
    have b := (mem_stride_indices_thread _ _ v2 h2 h2' x).1 hx2
    exact hne (a.2.2.symm.trans b.2.2)
  · intro x
    constructor
    · rintro ⟨hx0, hxN⟩
      have hpos : (main opts).num_threads_sender ≠ 0 := by omega
      refine ⟨x % (main opts).num_threads_sender, Int.emod_nonneg x hpos,
        Int.emod_lt_of_pos x (by omega), ?_⟩
      rw [heq _ (Int.emod_nonneg x hpos)]
      exact (mem_stride_indices_thread _ _ _ (Int.emod_nonneg x hpos)
        (Int.emod_lt_of_pos x (by omega)) x).2 ⟨hx0, hxN, rfl⟩
    · rintro ⟨val, h0, hv, hx⟩
      rw [heq val h0] at hx
      have a := (mem_stride_indices_thread _ _ val h0 hv x).1 hx
      exact ⟨a.1, a.2.1⟩
  · intro h2 h4
    rw [heq 0 (le_refl _), heq 1 (by decide), h2, h4]
    decide

/-- Witness for the amended C2: the scenario of the specification (two sender
threads, four iterations, no warm-up). -/
theorem sender_iterations_partition_witness :
    1 ≤ (main scenario).num_threads_sender ∧
    0 ≤ scenario.iterations + scenario.skip ∧
    scenario.iterations + scenario.skip + (main scenario).num_threads_sender ≤ INT_MAX + 1 ∧
    send_indices scenario 0 = [0, 2] ∧ send_indices scenario 1 = [1, 3] :=
  ⟨by decide, by decide, by decide,
    (sender_iterations_partition scenario (by decide) (by decide) (by decide)).2.2.2
      (by decide) (by decide)⟩

/-- C3, counterexample: with two sender threads, `iterations = 2147483647`
and `skip = 1`, the thread `skip mod S` is thread 1; its iteration loop
overflows at the sum `iterations + skip` with `flag_print` still 0, and
neither sender thread emits a latency line. -/
theorem one_latency_line_per_epoch_counterexample :
    1 ≤ (main scenario_int_max).num_threads_sender ∧
    0 ≤ scenario_int_max.skip ∧ 1 ≤ scenario_int_max.iterations ∧
    scenario_int_max.skip % (main scenario_int_max).num_threads_sender = 1 ∧
    (send_thread_iterations scenario_int_max (main scenario_int_max) 1).status
      = Status.overflow ∧
    (send_thread_iterations scenario_int_max (main scenario_int_max) 1).flag_print = 0 ∧
    (send_thread_epoch scenario_int_max (main scenario_int_max) 1 1).latency_line = none ∧
    (send_thread_epoch scenario_int_max (main scenario_int_max) 0 1).latency_line = none := by
  decide

/-- C3, amended: for every sender count `S ≥ 1`, in an epoch run with warm-up
`skip ≥ 0`, `iterations ≥ 1` and `iterations + skip + S ≤ INT_MAX + 1`, so
that neither the sum nor a step of the index overflows, the thread
`skip mod S` is a sender thread, every sender thread ends its iteration loop,
the final `flag_print` of thread `val` is 1 when `val = skip mod S` and 0
otherwise, and the thread emits the latency line for the size exactly in the
first case.  This holds for the epoch body under any options, and for every
epoch of a sender thread with the counts in force in that epoch. -/
theorem one_latency_line_per_epoch (opts : Options)
    (hS : 1 ≤ (main opts).num_threads_sender) :
    (0 ≤ opts.skip → 1 ≤ opts.iterations →
      opts.iterations + opts.skip + (main opts).num_threads_sender ≤ INT_MAX + 1 →
      (0 ≤ opts.skip % (main opts).num_threads_sender ∧
        opts.skip % (main opts).num_threads_sender < (main opts).num_threads_sender) ∧
      ∀ val size, 0 ≤ val → val < (main opts).num_threads_sender →
        (send_thread_iterations opts (main opts) val).status = Status.finished ∧
        (send_thread_iterations opts (main opts) val).flag_print
          = (if val = opts.skip % (main opts).num_threads_sender then 1 else 0) ∧
        (send_thread_epoch opts (main opts) val size).latency_line
          = (if val = opts.skip % (main opts).num_threads_sender then some size else none)) ∧
    (∀ (L : Int) (fuel : Nat) (val : Int), 0 ≤ val → val < (main opts).num_threads_sender →
      ∀ e ∈ (send_thread L opts val fuel).epochs, 0 ≤ e.skip → 1 ≤ e.iterations →
        e.iterations + e.skip + (main opts).num_threads_sender ≤ INT_MAX + 1 →
        e.loop_status = Status.finished ∧
        e.flag_print = (if val = e.skip % (main opts).num_threads_sender then 1 else 0) ∧
        e.latency_line
          = (if val = e.skip % (main opts).num_threads_sender then some e.size else none)) := by
  constructor
  · intro hskip hit hhi
    refine ⟨⟨Int.emod_nonneg _ (by omega), Int.emod_lt_of_pos _ (by omega)⟩, ?_⟩
    intro val size h0 hv
    exact send_thread_epoch_flag opts (main opts) val size h0 hv hskip hit hhi
  · intro L fuel val h0 hv e he hskip hit hhi
    obtain ⟨opts1, size1, rfl, _, _⟩ := send_thread_loop_epochs L (main opts) val fuel opts _ e he
    have h := send_thread_epoch_flag opts1 (main opts) val size1 h0 hv hskip hit hhi
    exact ⟨h.1, h.2.1, h.2.2⟩

/-- Witness for the amended C3: in the scenario of the specification, thread
0 of the two sender threads is the one that prints. -/
theorem one_latency_line_per_epoch_witness :
    1 ≤ (main scenario).num_threads_sender ∧ 0 ≤ scenario.skip ∧ 1 ≤ scenario.iterations ∧
    scenario.iterations + scenario.skip + (main scenario).num_threads_sender ≤ INT_MAX + 1 ∧
    (send_thread_epoch scenario (main scenario) 0 1).latency_line = some 1 ∧
    (send_thread_epoch scenario (main scenario) 1 1).latency_line = none :=
  ⟨by decide, by decide, by decide, by decide,
    ((one_latency_line_per_epoch scenario (by decide)).1 (by decide) (by decide)
      (by decide)).2 0 1 (by decide) (by decide) |>.2.2,
    ((one_latency_line_per_epoch scenario (by decide)).1 (by decide) (by decide)
      (by decide)).2 1 1 (by decide) (by decide) |>.2.2⟩

/-- C4, counterexample: with `min_message_size = 0` and
`max_message_size = 4` the first epoch of a sender thread and of a receiver
thread has message size 0, not 1. -/
theorem first_epoch_size_counterexample :
    scenario_from_zero.min_message_size = 0 ∧ 1 ≤ scenario_from_zero.max_message_size ∧
    (send_sizes 8192 scenario_from_zero 0 40).head? = some 0 ∧
    (recv_sizes 8192 scenario_from_zero 0 40).head? = some 0 ∧
    (send_thread 8192 scenario_from_zero 0 40).status = Status.finished ∧
    send_sizes 8192 scenario_from_zero 0 40 = [0, 1, 2, 4] := by
  decide

/-- C4, amended: when `min_message_size = 0` and `max_message_size ≥ 1`, the
first epoch of a sender thread and of a receiver thread has message size 0
and the second has message size 1. -/
theorem first_epochs_from_zero (L : Int) (opts : Options) (val : Int) (fuel : Nat)
    (hmin : opts.min_message_size = 0) (hmax : 1 ≤ opts.max_message_size)
    (hS : 1 ≤ (main opts).num_threads_sender) (hR : 1 ≤ opts.num_threads)
    (hf : 2 ≤ fuel) :
    (∃ rest, send_sizes L opts val fuel = 0 :: 1 :: rest) ∧
    (∃ rest, recv_sizes L opts val fuel = 0 :: 1 :: rest) := by
  rw [(send_sizes_eq L opts val fuel hS).1, (recv_sizes_eq L opts val fuel hR).1, hmin]
  exact ⟨size_loop_from_zero _ hmax fuel hf, size_loop_from_zero _ hmax fuel hf⟩

/-- Witness for the amended C4: the scenario of the specification started at
size 0. -/
theorem first_epochs_from_zero_witness :
    scenario_from_zero.min_message_size = 0 ∧ 1 ≤ scenario_from_zero.max_message_size ∧
    1 ≤ (main scenario_from_zero).num_threads_sender ∧ 1 ≤ scenario_from_zero.num_threads ∧
    ((∃ rest, send_sizes 8192 scenario_from_zero 0 40 = 0 :: 1 :: rest) ∧
      (∃ rest, recv_sizes 8192 scenario_from_zero 0 40 = 0 :: 1 :: rest)) :=
  ⟨by decide, by decide, by decide, by decide,
    first_epochs_from_zero 8192 scenario_from_zero 0 40 (by decide) (by decide) (by decide)
      (by decide) (by decide)⟩

/-- C5: for `min_message_size ≥ 1`, thread counts `≥ 1` and a run in which
the doubling does not overflow, the size loops of `send_thread` and of
`recv_thread` end, and both visit exactly the sizes `min * 2 ^ k` that are
`≤ max_message_size`, for `k = 0, 1, ...` in this order; the sizes are
strictly increasing, there is none when `max < min`, and for `min = 1`,
`max = 4` they are 1, 2, 4. -/
theorem size_progression (L : Int) (opts : Options) (vs vr : Int) (fuel : Nat)
    (hmin : 1 ≤ opts.min_message_size)
    (hS : 1 ≤ (main opts).num_threads_sender) (hR : 1 ≤ opts.num_threads)
    (hf : 31 ≤ fuel)
    (hno : (send_thread L opts vs fuel).status ≠ Status.overflow) :
    (send_thread L opts vs fuel).status = Status.finished ∧
    (recv_thread L opts vr fuel).status = Status.finished ∧
    (∃ n : Nat, (∀ k : Nat, k < n ↔ opts.min_message_size * 2 ^ k ≤ opts.max_message_size) ∧
      send_sizes L opts vs fuel
        = (List.range n).map (fun (k : Nat) => opts.min_message_size * 2 ^ k) ∧
      recv_sizes L opts vr fuel
        = (List.range n).map (fun (k : Nat) => opts.min_message_size * 2 ^ k)) ∧
    (send_sizes L opts vs fuel).Pairwise (fun a b => a < b) ∧
    (opts.max_message_size < opts.min_message_size → send_sizes L opts vs fuel = []) ∧
    (opts.min_message_size = 1 → opts.max_message_size = 4 →
      send_sizes L opts vs fuel = [1, 2, 4]) := by
  obtain ⟨hs1, hs2⟩ := send_sizes_eq L opts vs fuel hS
  obtain ⟨hr1, hr2⟩ := recv_sizes_eq L opts vr fuel hR
  rw [hs2] at hno
  obtain ⟨hfin, n, hn, hl⟩ := size_loop_closed_form opts.max_message_size fuel
    opts.min_message_size hmin (Or.inr (by omega)) (fuel_bound _ hmin fuel hf) hno
  rw [hs1, hr1, hs2, hr2]
  refine ⟨hfin, hfin, ⟨n, hn, hl, hl⟩, (size_loop_increasing _ fuel _ hmin).1, ?_, ?_⟩
  · intro hlt
    have h0 : ¬ 0 < n := fun h => by
      have := (hn 0).1 h
      simp at this
      omega
    have : n = 0 := by omega
    rw [hl, this]
    rfl
  · intro h1 h4
    have h2 : 2 < n := (hn 2).2 (by rw [h1, h4]; norm_num)
    have h3 : ¬ 3 < n := fun h => by
      have := (hn 3).1 h
      rw [h1, h4] at this
      norm_num at this
    have : n = 3 := by omega
    rw [hl, this, h1]
    decide

/-- Witness for C5: the scenario of the specification (sizes 1 to 4). -/
theorem size_progression_witness :
    1 ≤ scenario.min_message_size ∧ 1 ≤ (main scenario).num_threads_sender ∧
    1 ≤ scenario.num_threads ∧
    (send_thread 8192 scenario 0 40).status ≠ Status.overflow ∧
    send_sizes 8192 scenario 0 40 = [1, 2, 4] :=
  ⟨by decide, by decide, by decide, by decide,
    (size_progression 8192 scenario 0 1 40 (by decide) (by decide) (by decide) (by decide)
      (by decide)).2.2.2.2.2 (by decide) (by decide)⟩

/-- C6: for a threshold `LARGE_MESSAGE_SIZE ≥ 0`, every epoch of a sender
thread and of a receiver thread whose size is at most the threshold runs with
the configured `iterations` and `skip`, and every epoch whose size is above
the threshold runs with `iterations_large` and `skip_large`. -/
theorem large_message_switch (L : Int) (opts : Options) (vs vr : Int) (fuel : Nat)
    (hL : 0 ≤ L) :
    (∀ e ∈ (send_thread L opts vs fuel).epochs,
      (e.size ≤ L → e.iterations = opts.iterations ∧ e.skip = opts.skip) ∧
      (L < e.size → e.iterations = opts.iterations_large ∧ e.skip = opts.skip_large)) ∧
    (∀ e ∈ (recv_thread L opts vr fuel).epochs,
      (e.size ≤ L → e.iterations = opts.iterations ∧ e.skip = opts.skip) ∧
      (L < e.size → e.iterations = opts.iterations_large ∧ e.skip = opts.skip_large)) :=
  ⟨send_thread_loop_counts L hL (main opts) vs _ _ _ _ fuel opts _ rfl rfl (Or.inl ⟨rfl, rfl⟩),
    recv_thread_loop_counts L hL vr _ _ _ _ fuel opts _ rfl rfl (Or.inl ⟨rfl, rfl⟩)⟩

/-- Witness for C6: the scenario of the specification with threshold 2; the
epochs of sizes 1 and 2 run with 4 iterations, the epoch of size 4 with 2. -/
theorem large_message_switch_witness :
    (0 : Int) ≤ 2 ∧
    (send_thread 2 scenario 0 40).epochs.map (fun e => (e.size, e.iterations, e.skip))
      = [(1, 4, 0), (2, 4, 0), (4, 2, 0)] ∧
    (∀ e ∈ (send_thread 2 scenario 0 40).epochs,
      (e.size ≤ 2 → e.iterations = scenario.iterations ∧ e.skip = scenario.skip) ∧
      (2 < e.size → e.iterations = scenario.iterations_large ∧
        e.skip = scenario.skip_large)) :=
  ⟨by decide, by decide, (large_message_switch 2 scenario 0 0 40 (by decide)).1⟩

/-- C7: when `sender_thread` is unset (-1) or at least 1, the sender count
set by `main` is either above 1 or equal to 1.  Above 1, every round `i` of a
sender uses tag `i` for its send and its receive, and every round `i` of a
receiver uses tag `i` for its receive and its reply.  Equal to 1, a sender
sends with tag 1 and receives with tag 2, a receiver receives with tag 1 and
replies with tag 2.  In both cases, for a sender round and a receiver round
with the same index, the sender's send tag is the receiver's receive tag and
the receiver's reply tag is the sender's receive tag. -/
theorem tag_discipline (L : Int) (opts : Options) (fuel : Nat)
    (hst : opts.sender_thread = -1 ∨ 1 ≤ opts.sender_thread) :
    ((main opts).num_threads_sender > 1 ∨ (main opts).num_threads_sender = 1) ∧
    ((main opts).num_threads_sender > 1 →
      (∀ val, ∀ e ∈ (send_thread L opts val fuel).epochs, ∀ r ∈ e.rounds,
        r.send_tag = r.i ∧ r.recv_tag = r.i) ∧
      (∀ val, ∀ e ∈ (recv_thread L opts val fuel).epochs, ∀ r ∈ e.rounds,
        r.recv_tag = r.i ∧ r.send_tag = r.i)) ∧
    ((main opts).num_threads_sender = 1 →
      (∀ val, ∀ e ∈ (send_thread L opts val fuel).epochs, ∀ r ∈ e.rounds,
        r.send_tag = 1 ∧ r.recv_tag = 2) ∧
      (∀ val, ∀ e ∈ (recv_thread L opts val fuel).epochs, ∀ r ∈ e.rounds,
        r.recv_tag = 1 ∧ r.send_tag = 2)) ∧
    (∀ vs vr, ∀ es ∈ (send_thread L opts vs fuel).epochs,
      ∀ er ∈ (recv_thread L opts vr fuel).epochs,
      ∀ rs ∈ es.rounds, ∀ rr ∈ er.rounds, rs.i = rr.i →
        rs.send_tag = rr.recv_tag ∧ rr.send_tag = rs.recv_tag) := by
  have hmain : (main opts).num_threads_sender
      = if opts.sender_thread ≠ -1 then opts.sender_thread else 1 := rfl
  refine ⟨?_, ?_, ?_, ?_⟩
  · rw [hmain]
    split <;> omega
  · intro h
    have hgt : opts.sender_thread > 1 := by
      rw [hmain] at h
      split at h <;> omega
    refine ⟨fun val e he r hr => ?_, fun val e he r hr => ?_⟩
    · simpa [hgt] using send_thread_tags L opts val fuel e he r hr
    · simpa [hgt] using recv_thread_tags L opts val fuel e he r hr
  · intro h
    have hle : ¬ opts.sender_thread > 1 := by
      rw [hmain] at h
      split at h <;> omega
    refine ⟨fun val e he r hr => ?_, fun val e he r hr => ?_⟩
    · simpa [hle] using send_thread_tags L opts val fuel e he r hr
    · simpa [hle] using recv_thread_tags L opts val fuel e he r hr
  · intro vs vr es hes er her rs hrs rr hrr hi
    obtain ⟨a1, a2⟩ := send_thread_tags L opts vs fuel es hes rs hrs
    obtain ⟨b1, b2⟩ := recv_thread_tags L opts vr fuel er her rr hrr
    rw [a1, a2, b1, b2, hi]
    exact ⟨rfl, rfl⟩

/-- Witness for C7: the scenario of the specification, with two sender
threads, uses the iteration index as tag. -/
theorem tag_discipline_witness :
    (scenario.sender_thread = -1 ∨ 1 ≤ scenario.sender_thread) ∧
    (main scenario).num_threads_sender > 1 ∧
    (∀ val, ∀ e ∈ (send_thread 8192 scenario val 40).epochs, ∀ r ∈ e.rounds,
      r.send_tag = r.i ∧ r.recv_tag = r.i) :=
  ⟨by decide, by decide,
    ((tag_discipline 8192 scenario 40 (by decide)).2.1 (by decide)).1⟩

/-- C8, counterexample: with a single sender thread and `sender_thread`
unset, every round of the receiver thread receives with tag 1 and replies
with tag 2, so the reply tag is not the tag just received. -/
theorem reply_tag_counterexample :
    ((recv_thread 8192 scenario_single 0 40).epochs.map
      (fun e => e.rounds.map (fun r => (r.i, r.recv_tag, r.send_tag))))
      = [[(0, 1, 2), (1, 1, 2), (2, 1, 2), (3, 1, 2)],
         [(0, 1, 2), (1, 1, 2), (2, 1, 2), (3, 1, 2)],
         [(0, 1, 2), (1, 1, 2), (2, 1, 2), (3, 1, 2)]] ∧
    ¬ (∀ e ∈ (recv_thread 8192 scenario_single 0 40).epochs, ∀ r ∈ e.rounds,
        r.send_tag = r.recv_tag) := by
  decide

/-- C8, amended: in every round of `recv_thread`, when `sender_thread > 1`
the reply is sent with the tag of the message just received, which is the
iteration index; when `sender_thread ≤ 1` the message is received with tag 1
and the reply is sent with tag 2. -/
theorem reply_tag (L : Int) (opts : Options) (val : Int) (fuel : Nat) :
    ∀ e ∈ (recv_thread L opts val fuel).epochs, ∀ r ∈ e.rounds,
      (1 < opts.sender_thread → r.recv_tag = r.i ∧ r.send_tag = r.recv_tag) ∧
      (opts.sender_thread ≤ 1 → r.recv_tag = 1 ∧ r.send_tag = 2) := by
  intro e he r hr
  obtain ⟨h1, h2⟩ := recv_thread_tags L opts val fuel e he r hr
  constructor
  · intro h
    have hgt : opts.sender_thread > 1 := h
    simp only [hgt, if_true] at h1 h2
    exact ⟨h1, h2.trans h1.symm⟩
  · intro h
    have hle : ¬ opts.sender_thread > 1 := by omega
    simp only [hle, if_false] at h1 h2
    exact ⟨h1, h2⟩

/-- Witness for the amended C8: the first round of the first epoch of a
receiver thread in the scenario of the specification replies with the tag it
received. -/
theorem reply_tag_witness :
    recv_thread_epoch scenario 0 1 ∈ (recv_thread 8192 scenario 0 40).epochs ∧
    (⟨0, 0, 0⟩ : RecvRound) ∈ (recv_thread_epoch scenario 0 1).rounds ∧
    1 < scenario.sender_thread ∧
    (⟨0, 0, 0⟩ : RecvRound).send_tag = (⟨0, 0, 0⟩ : RecvRound).recv_tag :=
  ⟨by decide, by decide, by decide,
    ((reply_tag 8192 scenario 0 40 (recv_thread_epoch scenario 0 1) (by decide)
      ⟨0, 0, 0⟩ (by decide)).1 (by decide)).2⟩

/-- C9, counterexample: with two sender threads, two receiver threads,
`iterations = 2147483647` and `skip = 1`, the sum `iterations + skip` does not
fit an `int`; no thread of either role performs an exchange, although
`N = iterations + skip` is `2147483648`. -/
theorem tags_matched_across_roles_counterexample :
    2 ≤ scenario_int_max.sender_thread ∧ 1 ≤ scenario_int_max.num_threads ∧
    all_sender_send_tags scenario_int_max = [] ∧
    all_receiver_recv_tags scenario_int_max = [] ∧
    (scenario_int_max.iterations + scenario_int_max.skip).toNat = 2147483648 ∧
    (all_sender_send_tags scenario_int_max).length
      ≠ (scenario_int_max.iterations + scenario_int_max.skip).toNat ∧
    (all_receiver_recv_tags scenario_int_max).length
      ≠ (scenario_int_max.iterations + scenario_int_max.skip).toNat := by
  decide

/-- C9, amended: for `S ≥ 2` sender threads and `R ≥ 1` receiver threads, in
one epoch with `N = iterations + skip` such that `INT_MIN ≤ N`,
`N + S ≤ INT_MAX + 1` and `N + R ≤ INT_MAX + 1`, so that neither the sum nor
a step of the index overflows, a tag is used by sender thread `val` for one
send and one receive if it lies in `[0, N)` and is congruent to `val` modulo
`S`, and not at all otherwise; likewise for receiver thread `val` modulo `R`.
The tags sent by all sender threads are a permutation of the tags received by
all receiver threads, both being a permutation of `0, ..., N - 1`, so that
each role performs `N` exchanges. -/
theorem tags_matched_across_roles (opts : Options)
    (hS : 2 ≤ opts.sender_thread) (hR : 1 ≤ opts.num_threads)
    (hlo : INT_MIN ≤ opts.iterations + opts.skip)
    (hhiS : opts.iterations + opts.skip + opts.sender_thread ≤ INT_MAX + 1)
    (hhiR : opts.iterations + opts.skip + opts.num_threads ≤ INT_MAX + 1) :
    (main opts).num_threads_sender = opts.sender_thread ∧
    (∀ val, 0 ≤ val → val < opts.sender_thread → ∀ t,
      ((send_thread_iterations opts (main opts) val).rounds.map (fun r => r.send_tag)).count t
        = (if 0 ≤ t ∧ t < opts.iterations + opts.skip ∧ t % opts.sender_thread = val
            then 1 else 0) ∧
      ((send_thread_iterations opts (main opts) val).rounds.map (fun r => r.recv_tag)).count t
        = (if 0 ≤ t ∧ t < opts.iterations + opts.skip ∧ t % opts.sender_thread = val
            then 1 else 0)) ∧
    (∀ val, 0 ≤ val → val < opts.num_threads → ∀ t,
      ((recv_thread_iterations opts val).rounds.map (fun r => r.recv_tag)).count t
        = (if 0 ≤ t ∧ t < opts.iterations + opts.skip ∧ t % opts.num_threads = val
            then 1 else 0) ∧
      ((recv_thread_iterations opts val).rounds.map (fun r => r.send_tag)).count t
        = (if 0 ≤ t ∧ t < opts.iterations + opts.skip ∧ t % opts.num_threads = val
            then 1 else 0)) ∧
    List.Perm (all_sender_send_tags opts) (all_receiver_recv_tags opts) ∧
    List.Perm (all_sender_send_tags opts)
      ((List.range (opts.iterations + opts.skip).toNat).map (fun (k : Nat) => (k : Int))) ∧
    (all_sender_send_tags opts).length = (opts.iterations + opts.skip).toNat ∧
    (all_receiver_recv_tags opts).length = (opts.iterations + opts.skip).toNat := by
  have hmain : (main opts).num_threads_sender = opts.sender_thread := by
    show (if opts.sender_thread ≠ -1 then opts.sender_thread else 1) = opts.sender_thread
    rw [if_pos (by omega)]
  have hgt : 1 < opts.sender_thread := by omega
  have hS1 : 1 ≤ (main opts).num_threads_sender := by rw [hmain]; omega
  have hhiS1 : opts.iterations + opts.skip + (main opts).num_threads_sender ≤ INT_MAX + 1 := by
    rw [hmain]; exact hhiS
  have hcs : ∀ t, (all_sender_send_tags opts).count t
      = if 0 ≤ t ∧ t < opts.iterations + opts.skip then 1 else 0 := by
    intro t
    unfold all_sender_send_tags
    apply count_all_stride_indices _ _ hS1
    intro id
    rw [(send_tags_eq_indices opts _ hgt).1,
      send_indices_eq opts _ hS1 hlo hhiS1 (Int.ofNat_nonneg id)]
  have hcr : ∀ t, (all_receiver_recv_tags opts).count t
      = if 0 ≤ t ∧ t < opts.iterations + opts.skip then 1 else 0 := by
    intro t
    unfold all_receiver_recv_tags
    apply count_all_stride_indices _ _ hR
    intro id
    rw [(recv_tags_eq_indices opts _ hgt).1,
      recv_indices_eq opts _ hR hlo hhiR (Int.ofNat_nonneg id)]
  have hrange : ∀ t, ((List.range (opts.iterations + opts.skip).toNat).map
      (fun (k : Nat) => (k : Int))).count t
      = if 0 ≤ t ∧ t < opts.iterations + opts.skip then 1 else 0 := by
    intro t
    rw [count_range_cast]
    by_cases h : 0 ≤ t ∧ t < opts.iterations + opts.skip
    · rw [if_pos h, if_pos ⟨h.1, by omega⟩]
    · rw [if_neg h, if_neg (fun h' => h ⟨h'.1, by omega⟩)]
  have hps : List.Perm (all_sender_send_tags opts)
      ((List.range (opts.iterations + opts.skip).toNat).map (fun (k : Nat) => (k : Int))) :=
    List.perm_iff_count.2 (fun t => (hcs t).trans (hrange t).symm)
  have hpr : List.Perm (all_receiver_recv_tags opts)
      ((List.range (opts.iterations + opts.skip).toNat).map (fun (k : Nat) => (k : Int))) :=
    List.perm_iff_count.2 (fun t => (hcr t).trans (hrange t).symm)
  refine ⟨hmain, ?_, ?_, hps.trans hpr.symm, hps, ?_, ?_⟩
  · intro val h0 hv t
    rw [(send_tags_eq_indices opts val hgt).1, (send_tags_eq_indices opts val hgt).2,
      send_indices_eq opts val hS1 hlo hhiS1 h0, hmain]
    exact ⟨count_stride_indices_thread _ _ val h0 hv t,
      count_stride_indices_thread _ _ val h0 hv t⟩
  · intro val h0 hv t
    rw [(recv_tags_eq_indices opts val hgt).1, (recv_tags_eq_indices opts val hgt).2,
      recv_indices_eq opts val hR hlo hhiR h0]
    exact ⟨count_stride_indices_thread _ _ val h0 hv t,
      count_stride_indices_thread _ _ val h0 hv t⟩
  · rw [hps.length_eq]; simp
  · rw [hpr.length_eq]; simp

/-- Witness for the amended C9: the scenario of the specification, two sender
threads and two receiver threads exchanging the tags 0, 1, 2, 3. -/
theorem tags_matched_across_roles_witness :
    2 ≤ scenario.sender_thread ∧ 1 ≤ scenario.num_threads ∧
    INT_MIN ≤ scenario.iterations + scenario.skip ∧
    scenario.iterations + scenario.skip + scenario.sender_thread ≤ INT_MAX + 1 ∧
    scenario.iterations + scenario.skip + scenario.num_threads ≤ INT_MAX + 1 ∧
    List.Perm (all_sender_send_tags scenario) (all_receiver_recv_tags scenario) ∧
    (all_sender_send_tags scenario).length = (scenario.iterations + scenario.skip).toNat :=
  ⟨by decide, by decide, by decide, by decide, by decide,
    (tags_matched_across_roles scenario (by decide) (by decide) (by decide) (by decide)
      (by decide)).2.2.2.1,
    (tags_matched_across_roles scenario (by decide) (by decide) (by decide) (by decide)
      (by decide)).2.2.2.2.2.1⟩

/-- C10: for every configured thread count `T ≥ 1`, after any number of
arrivals following `main` the epoch counter satisfies `1 ≤ counter ≤ T`, for
the sender and for the receiver coordinator; and an arrival that calls the
cross-process barrier leaves the counter at 1. -/
theorem epoch_counter_invariant (opts : Options)
    (hS : 1 ≤ (main opts).num_threads_sender) (hR : 1 ≤ opts.num_threads) (n : Nat) :
    (1 ≤ (arrivals send_thread_arrive n (main opts)).2.finished_size_sender ∧
      (arrivals send_thread_arrive n (main opts)).2.finished_size_sender
        ≤ (main opts).num_threads_sender) ∧
    (1 ≤ (arrivals (recv_thread_arrive opts) n (main opts)).2.finished_size ∧
      (arrivals (recv_thread_arrive opts) n (main opts)).2.finished_size
        ≤ opts.num_threads) ∧
    (∀ g : Globals, (send_thread_arrive g).2 = true →
      (send_thread_arrive g).1.finished_size_sender = 1) ∧
    (∀ g : Globals, (recv_thread_arrive opts g).2 = true →
      (recv_thread_arrive opts g).1.finished_size = 1) := by
  refine ⟨(send_arrivals_spec opts hS n).2, (recv_arrivals_spec opts hR n).2, ?_, ?_⟩
  · intro g hg
    unfold send_thread_arrive at hg ⊢
    split at hg
    · rename_i h; simp [h]
    · simp at hg
  · intro g hg
    unfold recv_thread_arrive at hg ⊢
    split at hg
    · rename_i h; simp [h]
    · simp at hg

/-- Witness for C10: the scenario of the specification after five arrivals. -/
theorem epoch_counter_invariant_witness :
    1 ≤ (main scenario).num_threads_sender ∧ 1 ≤ scenario.num_threads ∧
    (1 ≤ (arrivals send_thread_arrive 5 (main scenario)).2.finished_size_sender ∧
      (arrivals send_thread_arrive 5 (main scenario)).2.finished_size_sender
        ≤ (main scenario).num_threads_sender) :=
  ⟨by decide, by decide, (epoch_counter_invariant scenario (by decide) (by decide) 5).1⟩

/-- C11, counterexample: with two sender threads, `iterations = 2147483647`
and `skip = 1`, the timer-holder is thread 1; its iteration loop overflows at
the sum `iterations + skip` before any round, `t_start` is never recorded,
and the number of rounds from `t_start` on is 0, not `⌈iterations / S⌉`. -/
theorem timer_holder_round_trips_counterexample :
    1 ≤ (main scenario_int_max).num_threads_sender ∧
    0 ≤ scenario_int_max.skip ∧ 1 ≤ scenario_int_max.iterations ∧
    (send_thread_iterations scenario_int_max (main scenario_int_max)
      (scenario_int_max.skip % (main scenario_int_max).num_threads_sender)).status
      = Status.overflow ∧
    timer_holder_rounds scenario_int_max = [] ∧
    rounds_from_t_start scenario_int_max = [] ∧
    ¬ (((rounds_from_t_start scenario_int_max).length : Int)
        = ⌈(scenario_int_max.iterations : ℚ)
            / ((main scenario_int_max).num_threads_sender : ℚ)⌉) := by
  have e : rounds_from_t_start scenario_int_max = [] := by decide
  refine ⟨by decide, by decide, by decide, by decide, by decide, e, ?_⟩
  rw [e]
  intro h
  have hi : (0 : ℚ) < (scenario_int_max.iterations : ℚ) :=
    Int.cast_pos.2 (by decide)
  have hs : (0 : ℚ) < ((main scenario_int_max).num_threads_sender : ℚ) :=
    Int.cast_pos.2 (by decide)
  have hpos : 0 < ⌈(scenario_int_max.iterations : ℚ)
      / ((main scenario_int_max).num_threads_sender : ℚ)⌉ :=
    Int.ceil_pos.2 (div_pos hi hs)
  rw [← h] at hpos
  simp at hpos

/-- C11, amended: for every sender count `S ≥ 1`, warm-up `skip ≥ 0` and
`iterations ≥ 1` with `iterations + skip + S ≤ INT_MAX + 1`, so that neither
the sum nor a step of the index overflows, the timer-holder, sender thread
`skip mod S`, ends its iteration loop; every round it runs before the round
that records `t_start` has an index below `skip`; the round that records
`t_start` is the one with index `skip`, and it is the only one; from that
round to the end of the loop the thread runs exactly `⌈iterations / S⌉`
rounds; and this number equals the quotient `iterations / S`, taken in the
rationals as in the latency divisor `2.0 * iterations / num_threads_sender`,
exactly when `S` divides `iterations`. -/
theorem timer_holder_round_trips (opts : Options)
    (hS : 1 ≤ (main opts).num_threads_sender) (hskip : 0 ≤ opts.skip)
    (hit : 1 ≤ opts.iterations)
    (hhi : opts.iterations + opts.skip + (main opts).num_threads_sender ≤ INT_MAX + 1) :
    (send_thread_iterations opts (main opts)
      (opts.skip % (main opts).num_threads_sender)).status = Status.finished ∧
    (∀ r ∈ rounds_before_t_start opts, r.i < opts.skip) ∧
    (rounds_from_t_start opts).head?.map (fun r => (r.i, r.t_start_set))
      = some (opts.skip, true) ∧
    (timer_holder_rounds opts).countP (fun r => r.t_start_set) = 1 ∧
    ((rounds_from_t_start opts).length : Int)
      = ⌈(opts.iterations : ℚ) / ((main opts).num_threads_sender : ℚ)⌉ ∧
    (((rounds_from_t_start opts).length : ℚ)
        = (opts.iterations : ℚ) / ((main opts).num_threads_sender : ℚ) ↔
      (main opts).num_threads_sender ∣ opts.iterations) := by
  have hmin := INT_MIN_le_zero
  have hlo : INT_MIN ≤ opts.iterations + opts.skip := by omega
  obtain ⟨hb, ⟨f1, fl1, hf1, hfrom⟩, hup, hlow⟩ := timer_holder_split opts hS hskip hit hhi
  have hSq : (0 : ℚ) < ((main opts).num_threads_sender : ℚ) := by exact_mod_cast hS
  have hupq : (opts.iterations : ℚ)
      ≤ ((rounds_from_t_start opts).length : ℚ) * ((main opts).num_threads_sender : ℚ) := by
    exact_mod_cast hup
  have hlowq : (((rounds_from_t_start opts).length : ℚ) - 1)
      * ((main opts).num_threads_sender : ℚ) < (opts.iterations : ℚ) := by
    exact_mod_cast hlow
  have hv0 : 0 ≤ opts.skip % (main opts).num_threads_sender := Int.emod_nonneg _ (by omega)
  have hv1 : opts.skip % (main opts).num_threads_sender < (main opts).num_threads_sender :=
    Int.emod_lt_of_pos _ (by omega)
  refine ⟨send_thread_rounds_status opts (main opts) hS hlo hhi _ _ _ (by omega) (le_refl _),
    hb, ?_, ?_, ?_, ?_⟩
  · rw [hfrom]
    obtain ⟨f, rfl⟩ : ∃ f, f1 = f + 1 := ⟨f1 - 1, by omega⟩
    rw [send_thread_rounds_succ opts (main opts) hS hlo hhi f opts.skip fl1 (by omega)]
    have hlt : opts.skip < opts.iterations + opts.skip := by omega
    simp only [hlt, if_true]
    split <;> simp
  · have hcongr : (timer_holder_rounds opts).countP (fun r => r.t_start_set)
        = (timer_holder_rounds opts).countP ((fun x => x == opts.skip) ∘ (fun r => r.i)) := by
      apply List.countP_congr
      intro r hr
      have := (send_thread_rounds_mem opts (main opts) _ _ _ r hr).1
      simp [this]
    rw [hcongr, ← List.countP_map, ← List.count_eq_countP]
    have hidx : (timer_holder_rounds opts).map (fun r => r.i)
        = send_indices opts (opts.skip % (main opts).num_threads_sender) := rfl
    rw [hidx, send_indices_eq opts _ hS hlo hhi hv0, count_stride_indices_thread _ _ _ hv0 hv1]
    rw [if_pos ⟨hskip, by omega, rfl⟩]
  · symm
    rw [Int.ceil_eq_iff]
    constructor
    · rw [lt_div_iff₀ hSq]
      exact_mod_cast hlowq
    · rw [div_le_iff₀ hSq]
      exact_mod_cast hupq
  · rw [eq_div_iff (ne_of_gt hSq)]
    constructor
    · intro h
      have hz : ((rounds_from_t_start opts).length : Int) * (main opts).num_threads_sender
          = opts.iterations := by exact_mod_cast h
      exact Dvd.intro_left _ hz
    · rintro ⟨m, hm⟩
      have h1 : (((rounds_from_t_start opts).length : Int) - 1) < m := by
        by_contra hcon
        have : m * (main opts).num_threads_sender
            ≤ (((rounds_from_t_start opts).length : Int) - 1) * (main opts).num_threads_sender :=
          mul_le_mul_of_nonneg_right (by omega) (by omega)
        rw [hm] at hlow
        linarith
      have h2 : m ≤ ((rounds_from_t_start opts).length : Int) := by
        by_contra hcon
        have : (((rounds_from_t_start opts).length : Int) + 1) * (main opts).num_threads_sender
            ≤ m * (main opts).num_threads_sender :=
          mul_le_mul_of_nonneg_right (by omega) (by omega)
        rw [hm] at hup
        linarith
      have h3 : ((rounds_from_t_start opts).length : Int) = m := by omega
      have hz : ((rounds_from_t_start opts).length : Int) * (main opts).num_threads_sender
          = opts.iterations := by rw [h3, hm]; ring
      exact_mod_cast hz

/-- Witness for the amended C11: with three sender threads, a warm-up of five
rounds and four iterations, the timer-holder is thread 2; it runs the round 2
before recording `t_start` and the two rounds 5 and 8 after it. -/
theorem timer_holder_round_trips_witness :
    1 ≤ (main scenario_three).num_threads_sender ∧ 0 ≤ scenario_three.skip ∧
    1 ≤ scenario_three.iterations ∧
    scenario_three.iterations + scenario_three.skip
      + (main scenario_three).num_threads_sender ≤ INT_MAX + 1 ∧
    (rounds_before_t_start scenario_three).map (fun r => r.i) = [2] ∧
    (rounds_from_t_start scenario_three).map (fun r => r.i) = [5, 8] ∧
    ((rounds_from_t_start scenario_three).length : Int)
      = ⌈(scenario_three.iterations : ℚ)
          / ((main scenario_three).num_threads_sender : ℚ)⌉ :=
  ⟨by decide, by decide, by decide, by decide, by decide, by decide,
    (timer_holder_round_trips scenario_three (by decide) (by decide) (by decide)
      (by decide)).2.2.2.2.1⟩

end OsuLatencyMt
